import Mathlib

/-!
Shallow embedding of the go-vdf codec (github.com/lewisgibson/go-vdf).

The embedding follows the source files `decode.go`, `encode.go`, `node.go`
and `errors.go`.  Input bytes are modelled as a `List Char` of decoded runes
(the decoder reads runes via `bufio.Reader.ReadRune`); byte-oriented
operations (`Peek(20)`, `len(value)`, `strings.Index`) are modelled at the
rune level with Go's byte counts recovered via `String.utf8ByteSize` where
the source counts bytes.  All concrete inputs used in the theorems below are
ASCII, where runes and bytes coincide.  Go strings are Lean `String`s,
`map[string]*Node` is an association list `List (String × Option Node)`
(`Option` models the nullable `*Node` pointer; Go maps are unordered, so the
list order is a representation artifact and every theorem about maps is
insensitive to it), and Go `int` is `Int`.
-/

namespace GoVdf

/-- Go `unicode.IsSpace` over a rune: the Unicode White_Space code points
recognised by Go's `unicode.IsSpace` table. -/
def goIsSpace (c : Char) : Bool :=
  [' ', '\t', '\n', '\x0b', '\x0c', '\r', '\u0085', '\u00A0',
   '\u1680', '\u2000', '\u2001', '\u2002', '\u2003', '\u2004', '\u2005',
   '\u2006', '\u2007', '\u2008', '\u2009', '\u200A', '\u2028', '\u2029',
   '\u202F', '\u205F', '\u3000'].contains c

/-- Go `strings.TrimSpace` on a rune list: drop leading and trailing
white-space runes. -/
def goTrimSpaceList (l : List Char) : List Char :=
  ((l.dropWhile goIsSpace).reverse.dropWhile goIsSpace).reverse

/-- Go `strings.TrimSpace` on a string. -/
def goTrimSpace (s : String) : String :=
  ⟨goTrimSpaceList s.data⟩

/-- Go `strings.TrimRight(s, "\n\r")`: drop trailing newline and carriage
return runes. -/
def goTrimRightNewlines (l : List Char) : List Char :=
  (l.reverse.dropWhile (fun c => c = '\n' ∨ c = '\r')).reverse

/-- Go `strings.Split(s, "\n")` (total split on newline runes). -/
def goSplitNewline : List Char → List (List Char)
  | [] => [[]]
  | c :: rest =>
    match goSplitNewline rest with
    | [] => [[c]]
    | h :: t => if c = '\n' then [] :: h :: t else (c :: h) :: t

/-- Go `strings.Split(s, ",")[0]`: the prefix of the string before the first
comma (the whole string when there is no comma). -/
def commaHead (s : String) : String :=
  ⟨s.data.takeWhile (fun c => c ≠ ',')⟩

/-- Go `strings.ToLower`, restricted to ASCII letters (the only case-carrying
characters appearing in this development; Go uses the full Unicode tables). -/
def goToLower (s : String) : String :=
  ⟨s.data.map Char.toLower⟩

/-- Go `strings.EqualFold`, modelled for ASCII as equality after lower-casing
both sides. -/
def goEqualFold (a b : String) : Bool :=
  goToLower a == goToLower b

/-- Go `strings.Repeat(s, n)` specialised to building indentation. -/
def goRepeat (s : String) (n : Nat) : String :=
  match n with
  | 0 => ""
  | n + 1 => s ++ goRepeat s n

/-- NodeType constant `NodeTypeMap` from node.go (`iota` = 0). -/
def NodeTypeMap : Nat := 0

/-- NodeType constant `NodeTypeScalar` from node.go (= 1). -/
def NodeTypeScalar : Nat := 1

/-- The `Node` struct from node.go.  `ty` is the `Type NodeType` field
(a `uint8`, hence `Nat`, so that invalid variants are representable);
`children` models `Children map[string]*Node` as an association list whose
values are nullable pointers. -/
inductive Node : Type where
  | mk (ty : Nat) (value : String) (children : List (String × Option Node))
       (headComment : String) (lineComment : String)
       (line : Int) (column : Int) : Node

/-- Children association lists (the representation of `map[string]*Node`). -/
abbrev Children := List (String × Option Node)

/-- Projection: the `Type` field. -/
def Node.ty : Node → Nat
  | .mk t _ _ _ _ _ _ => t

/-- Projection: the `Value` field. -/
def Node.value : Node → String
  | .mk _ v _ _ _ _ _ => v

/-- Projection: the `Children` field. -/
def Node.children : Node → Children
  | .mk _ _ c _ _ _ _ => c

/-- Projection: the `HeadComment` field. -/
def Node.headComment : Node → String
  | .mk _ _ _ h _ _ _ => h

/-- Projection: the `LineComment` field. -/
def Node.lineComment : Node → String
  | .mk _ _ _ _ l _ _ => l

/-- Projection: the `Line` field. -/
def Node.line : Node → Int
  | .mk _ _ _ _ _ l _ => l

/-- Projection: the `Column` field. -/
def Node.column : Node → Int
  | .mk _ _ _ _ _ _ c => c

/-- Go map read `m[k]`: `some v` when the key is present (with `v` the stored
`*Node`, possibly nil), `none` when absent.  (Reading an absent key in Go
yields the zero value nil; call sites that do so apply `.getD none`.) -/
def mapGet {α : Type} (l : List (String × α)) (k : String) : Option α :=
  (l.find? (fun e => e.1 == k)).map (fun e => e.2)

/-- Go map assignment `m[k] = v`: replace the binding if present, otherwise
add one. -/
def mapAssign {α : Type} (l : List (String × α)) (k : String) (v : α) :
    List (String × α) :=
  match l with
  | [] => [(k, v)]
  | (k', v') :: rest =>
    if k' = k then (k, v) :: rest else (k', v') :: mapAssign rest k v

/-! ### Parser (decode.go) -/

/-- Errors produced while parsing, mirroring errors.go and the `io.EOF`
errors propagated out of `ReadRune`/`handleComment`.  (`PositionError` for
invalid UTF-8 cannot arise in this model because the input is a list of
already-decoded runes.) -/
inductive PErr : Type where
  | eof : PErr
  | parseError (line column : Int) (msg : String) : PErr
  | parseErrorExpected (line column : Int) (msg expected found : String) : PErr
deriving DecidableEq

/-- One frame of the decoder's stack of open map nodes.  Go pushes the new
`*Node` itself and mutates it in place; here a frame records the map node's
fields while it is open (`key` is the key under which it was inserted into
its parent) and the finished node is assembled when the frame is popped.
While a frame is open all insertions target the top of the stack, so the
deferred assembly is observationally identical to Go's eager insertion. -/
structure Frame : Type where
  key : String
  line : Int
  column : Int
  headComment : String
  children : Children

/-- Assemble the map `Node` described by a frame (the node allocated at `{`
in `processRune`, with the children accumulated while it was open). -/
def frameNode (f : Frame) : Node :=
  Node.mk NodeTypeMap "" f.children f.headComment "" f.line f.column

/-- Collapse a decoder stack into its root node: each open frame is (as in
Go, where this happened eagerly at `{`) a child of the frame beneath it.
Used both when `}` pops a single frame and at end of input, where open maps
are tolerated. -/
def collapse : List Frame → Node
  | [] => Node.mk NodeTypeMap "" [] "" "" 1 1
  | [f] => frameNode f
  | f :: g :: rest =>
    collapse ({ g with children := mapAssign g.children f.key (some (frameNode f)) } :: rest)
termination_by l => l.length

/-- Go `bufio.Reader.ReadString('\n')`: the consumed segment (including the
newline when found) and the remaining input. -/
def readThroughNewline : List Char → List Char × List Char
  | [] => ([], [])
  | c :: rest =>
    if c = '\n' then ([c], rest)
    else
      let p := readThroughNewline rest
      (c :: p.1, p.2)

/-- Go `strings.Index(line, "//")` as an optional rune index. -/
def firstDoubleSlash : List Char → Option Nat
  | [] => none
  | c :: rest =>
    match rest with
    | c2 :: _ => if c = '/' ∧ c2 = '/' then some 0 else (firstDoubleSlash rest).map (· + 1)
    | [] => none

/-- Scan of the peeked window in `hasLineComment`: skip white-space bytes;
report true exactly when the first non-space byte starts `//` (a `/` as the
last byte of the window does not count, matching the `i+1 < len(peeked)`
bound). -/
def hasLineCommentScan : List Char → Bool
  | [] => false
  | c :: rest =>
    if goIsSpace c then hasLineCommentScan rest
    else
      match rest with
      | c2 :: _ => c = '/' ∧ c2 = '/'
      | [] => false

/-- The decoder's `hasLineComment`: `Peek(20)` fails (returning false) when
fewer than 20 bytes remain; otherwise the 20-byte window is scanned. -/
def hasLineComment (input : List Char) : Bool :=
  if input.length < 20 then false
  else hasLineCommentScan (input.take 20)

/-- The decoder's `extractLineComment`: consume the rest of the current
physical line and return the trimmed text after the first `//` in it
(empty when there is none).  Returns the comment together with the input
remaining after the consumed line. -/
def extractLineComment (input : List Char) : String × List Char :=
  let p := readThroughNewline input
  match firstDoubleSlash p.1 with
  | none => ("", p.2)
  | some i => (goTrimSpace ⟨p.1.drop (i + 2)⟩, p.2)

/-- The decoder's `handleComment`: confirm the second `/` (without a position
update, as in the source), consume the rest of the line, append the trimmed
comment text to the running head-comment buffer, and reset the position to
the start of the next line.  Returns the new head comment, the remaining
input and the updated position. -/
def handleComment (input : List Char) (line column : Int) (headComment : String) :
    Except PErr (String × List Char × Int × Int) :=
  match input with
  | [] => .error .eof
  | c :: rest =>
    if c ≠ '/' then
      .error (.parseErrorExpected line column "expected '//' for comment" "//" ("/" ++ c.toString))
    else
      let p := readThroughNewline rest
      let comment := goTrimSpace ⟨goTrimRightNewlines p.1⟩
      let headComment' :=
        if comment ≠ "" then
          (if headComment ≠ "" then headComment ++ "\n" else headComment) ++ comment
        else headComment
      .ok (headComment', p.2, line + 1, 1)

/-- The decoder's `readKey`: accumulate runes (updating the position) until a
closing quote; the accumulated text becomes the current key, verbatim.
Returns the key, the remaining input and the updated position; end of input
propagates `io.EOF`. -/
def readKey (input : List Char) (line column : Int) (acc : List Char) :
    Except PErr (String × List Char × Int × Int) :=
  match input with
  | [] => .error .eof
  | c :: rest =>
    let line' := if c = '\n' then line + 1 else line
    let column' := if c = '\n' then 1 else column + 1
    if c = '"' then .ok (⟨acc⟩, rest, line', column')
    else readKey rest line' column' (acc ++ [c])

/-- Count of consecutive `\` bytes at the end of the value builder
(the loop `for i := len(value)-1; i >= 0 && value[i] == '\\'; i--`). -/
def trailingBackslashes (l : List Char) : Nat :=
  (l.reverse.takeWhile (fun c => c = '\\')).length

/-- The decoder's `readValue`: accumulate runes until an unescaped closing
quote.  On a quote with an odd number of trailing backslashes buffered, the
last backslash is replaced by a literal quote and reading continues; on an
even count the value terminates: the line comment (if any) is taken from the
remainder of the line, and a Scalar node is stored in the map on top of the
stack under the current key.  Returns the updated stack, remaining input and
position; the current key and head comment are cleared by the caller's
contract (the returned state has them consumed). -/
def readValue (input : List Char) (line column : Int) (stack : List Frame)
    (currentKey headComment : String) (acc : List Char) :
    Except PErr (List Frame × List Char × Int × Int) :=
  match input with
  | [] => .error .eof
  | c :: rest =>
    let line' := if c = '\n' then line + 1 else line
    let column' := if c = '\n' then 1 else column + 1
    if c = '"' then
      if 0 < acc.length ∧ trailingBackslashes acc % 2 = 1 then
        readValue rest line' column' stack currentKey headComment (acc.dropLast ++ ['"'])
      else
        let value : String := ⟨acc⟩
        let lineComment := if hasLineComment rest then (extractLineComment rest).1 else ""
        let rest' := if hasLineComment rest then (extractLineComment rest).2 else rest
        match stack with
        | [] => .error .eof
        | top :: stackRest =>
          let node := Node.mk NodeTypeScalar value []
            (goTrimSpace headComment) lineComment line'
            (column' - (value.utf8ByteSize : Int) - 3 - (value.data.count '"' : Int))
          .ok ({ top with children := mapAssign top.children currentKey (some node) } :: stackRest,
               rest', line', column')
    else readValue rest line' column' stack currentKey headComment (acc ++ [c])

/-- The decoder's `processRune` (together with `handleQuotedString`): the
state-machine dispatch on a single rune, threading the remaining input, the
position, the stack, the buffered key and the head-comment buffer. -/
def processRune (c : Char) (input : List Char) (line column : Int)
    (stack : List Frame) (currentKey headComment : String) :
    Except PErr (List Char × Int × Int × List Frame × String × String) :=
  if c = ' ' ∨ c = '\t' ∨ c = '\n' ∨ c = '\r' then
    .ok (input, line, column, stack, currentKey, headComment)
  else if c = '/' then
    (handleComment input line column headComment).map
      (fun r => (r.2.1, r.2.2.1, r.2.2.2, stack, currentKey, r.1))
  else if c = '{' then
    match stack with
    | [] => .error (.parseError line column "unexpected '\x7b' at root level")
    | _ :: _ =>
      let newFrame : Frame :=
        { key := currentKey, line := line, column := column - 1,
          headComment := goTrimSpace headComment, children := [] }
      .ok (input, line, column, newFrame :: stack, "", "")
  else if c = '}' then
    match stack with
    | [] => .error (.parseError line column "unexpected '\x7d' at root level")
    | [_] => .error (.parseError line column "unexpected '\x7d' at root level")
    | f :: g :: rest =>
      .ok (input, line, column,
           { g with children := mapAssign g.children f.key (some (frameNode f)) } :: rest,
           currentKey, headComment)
  else if c = '\uFEFF' then
    .ok (input, line, column, stack, currentKey, headComment)
  else if c = '"' then
    if currentKey = "" then
      (readKey input line column []).map
        (fun r => (r.2.1, r.2.2.1, r.2.2.2, stack, r.1, headComment))
    else
      (readValue input line column stack currentKey headComment []).map
        (fun r => (r.2.1, r.2.2.1, r.2.2.2, r.1, "", ""))
  else if goIsSpace c then
    .ok (input, line, column, stack, currentKey, headComment)
  else
    .error (.parseErrorExpected line column "unexpected character" "valid VDF character" c.toString)

/-- The main loop of `parse`: read one rune, update the position, process it.
As in Go, end of input returns the (possibly still open) tree with no error,
and an error returns the partial tree alongside the error.  The decreasing
guard is always satisfied because `processRune` only consumes input
(`processRune_length_le` below); its else branch is unreachable. -/
def parseLoop (input : List Char) (line column : Int) (stack : List Frame)
    (currentKey headComment : String) : Node × Option PErr :=
  match input with
  | [] => (collapse stack, none)
  | c :: rest =>
    let line1 := if c = '\n' then line + 1 else line
    let col1 := if c = '\n' then 1 else column + 1
    match processRune c rest line1 col1 stack currentKey headComment with
    | .error e => (collapse stack, some e)
    | .ok (rest', line', col', stack', key', head') =>
      if _h : rest'.length ≤ rest.length then
        parseLoop rest' line' col' stack' key' head'
      else
        (collapse stack', some .eof)
termination_by input.length
decreasing_by simp; omega

/-- The decoder's `parse`: reset position to 1:1, create the root map node
(Line 1, Column 1) and run the main loop. -/
def parse (input : List Char) : Node × Option PErr :=
  parseLoop input 1 1 [{ key := "", line := 1, column := 1, headComment := "", children := [] }] "" ""

/-! ### Encoder (encode.go) -/

/-- Errors produced by the encoder: `ErrNilValue`, `ErrNilNode` and
`ValidationError` from errors.go. -/
inductive EncErr : Type where
  | nilValue : EncErr
  | nilNode : EncErr
  | validation (msg : String) : EncErr
deriving DecidableEq

/-- The encoder's `writeQuotedString`: quotes around the raw value, no
escaping. -/
def writeQuotedString (s : String) : String :=
  "\"" ++ s ++ "\""

/-- The encoder's `writeIndent`: four spaces per indentation level. -/
def writeIndent (indent : Nat) : String :=
  goRepeat "    " indent

/-- The encoder's `writeHeadComment`: each line of the trimmed comment is
written as an indented `// ` line. -/
def writeHeadComment (comment : String) (indent : Nat) : String :=
  ((goSplitNewline (goTrimSpace comment).data).map
    (fun line => writeIndent indent ++ "// " ++ (⟨line⟩ : String) ++ "\n")).foldl (· ++ ·) ""

/-- Go `sort.Strings`: lexicographic (byte = code point for UTF-8) ascending
sort. -/
def sortStrings (l : List String) : List String :=
  l.mergeSort (fun a b => decide (a ≤ b))

mutual

/-- The encoder's `encodeMap`: nothing for an empty map, otherwise the
children are written in sorted key order (`encodeEntries`). -/
def encodeMap (node : Node) (indent : Nat) : String :=
  if node.children.length = 0 then ""
  else encodeEntries node.children (sortStrings (node.children.map Prod.fst)) indent
termination_by (sizeOf node, 0)
decreasing_by
  apply Prod.Lex.left
  cases node <;> simp [Node.children] <;> omega

/-- The key loop of `encodeMap`: each sorted key is looked up (an absent key
reads as the zero value nil); nil children are skipped (`continue`); map
children are written inside braces one level deeper; scalar children as a
quoted value with an optional tab-separated line comment; the inner switch
has no default, so a child with an unknown variant contributes only its
key. -/
def encodeEntries (children : Children) (keys : List String) (indent : Nat) : String :=
  match keys with
  | [] => ""
  | key :: restKeys =>
    (match h : (mapGet children key).getD none with
     | none => ""
     | some child =>
       (if child.headComment ≠ "" then writeHeadComment child.headComment indent else "")
       ++ writeIndent indent ++ writeQuotedString key
       ++ (if child.ty = NodeTypeMap then
             " \x7b\n" ++ encodeMap child (indent + 1) ++ writeIndent indent ++ "\x7d\n"
           else if child.ty = NodeTypeScalar then
             " " ++ writeQuotedString child.value
             ++ (if child.lineComment ≠ "" then "\t// " ++ child.lineComment else "") ++ "\n"
           else ""))
    ++ encodeEntries children restKeys indent
termination_by (sizeOf children, keys.length)
decreasing_by
  · apply Prod.Lex.left
    rcases hf : List.find? (fun e => e.1 == key) children with _ | e
    · simp [mapGet, hf] at h
    · have hmem := List.mem_of_find?_eq_some hf
      have hlt := List.sizeOf_lt_of_mem hmem
      rcases e with ⟨k0, v0⟩
      simp [mapGet, hf] at h
      subst h
      simp at hlt
      omega
  · apply Prod.Lex.right
    simp

end

/-- The encoder's `encodeScalar` (reachable only for a top-level scalar
node). -/
def encodeScalar (node : Node) : String :=
  (if node.headComment ≠ "" then writeHeadComment node.headComment 0 else "")
  ++ writeQuotedString node.value
  ++ (if node.lineComment ≠ "" then "\t// " ++ node.lineComment else "") ++ "\n"

/-- The encoder's `encodeNode`: a nil node is `ErrNilNode`, a Map or Scalar
dispatches, any other variant tag is a validation error naming it. -/
def encodeNode (node : Option Node) (indent : Nat) : Except EncErr String :=
  match node with
  | none => .error .nilNode
  | some n =>
    if n.ty = NodeTypeMap then .ok (encodeMap n indent)
    else if n.ty = NodeTypeScalar then .ok (encodeScalar n)
    else .error (.validation ("unknown node type: " ++ toString n.ty))

/-- The `Encode` entry point restricted to Node inputs.  Go's `v any`
argument is modelled as `Option (Option Node)`: `none` is a nil interface
value (`ErrNilValue`); `some none` is a non-nil interface holding a nil
`*Node` (dispatched to `encodeNode`, hence `ErrNilNode`); `some (some n)`
is an ordinary node.  (The Marshaler and struct paths of `Encode` are
modelled separately by `structToNode`.) -/
def Encode (v : Option (Option Node)) : Except EncErr String :=
  match v with
  | none => .error .nilValue
  | some n => encodeNode n 0

/-! ### Binding layer (mapNodeToStruct / structToNode)

The reflection-based binding layer is modelled for flat record types whose
fields have string, bool or sized integer kinds; `unsupported` stands for
any other field kind (reaching the `default` branches of the source
switches).  The pointer, float, nested-struct and custom-(Un)Marshaler paths
are outside the model; no claim below exercises them. -/

/-- Field kinds of the modelled record types. -/
inductive GoKind : Type where
  | stringKind : GoKind
  | boolKind : GoKind
  | intKind (bits : Nat) : GoKind
  | uintKind (bits : Nat) : GoKind
  | unsupported (desc : String) : GoKind
deriving DecidableEq

/-- One struct field as seen by reflection: its Go name, the value of its
`vdf` tag (empty when absent), whether it is exported, and its kind. -/
structure GoField : Type where
  name : String
  tag : String
  exported : Bool
  kind : GoKind
deriving DecidableEq

/-- A field value. -/
inductive GoValue : Type where
  | str (s : String) : GoValue
  | boolean (b : Bool) : GoValue
  | intVal (n : Int) : GoValue
  | uintVal (n : Nat) : GoValue
deriving DecidableEq

/-- The zero value of a field kind. -/
def zeroValue : GoKind → GoValue
  | .stringKind => .str ""
  | .boolKind => .boolean false
  | .intKind _ => .intVal 0
  | .uintKind _ => .uintVal 0
  | .unsupported _ => .str ""

/-- Displayed name of a kind (Go formats `reflect.Kind` with `%v`; only used
inside error messages). -/
def kindName : GoKind → String
  | .stringKind => "string"
  | .boolKind => "bool"
  | .intKind b => "int" ++ toString b
  | .uintKind b => "uint" ++ toString b
  | .unsupported d => d

/-- Errors from `strconv` parsing: `ErrSyntax` and `ErrRange`. -/
inductive StrconvErr : Type where
  | syntaxErr : StrconvErr
  | rangeErr : StrconvErr
deriving DecidableEq

/-- Binding-layer errors: `TypeError` (with its wrapped strconv cause),
`OverflowError` and `ValidationError` from errors.go. -/
inductive BindErr : Type where
  | typeError (ty value : String) (cause : StrconvErr) : BindErr
  | overflowError (ty value : String) : BindErr
  | validationError (msg : String) : BindErr
deriving DecidableEq

/-- The `fieldInfo` struct from decode.go (`Index []int` is a single index
for flat records). -/
structure FieldInfo : Type where
  index : Nat
  tag : String
deriving DecidableEq

/-- The field-name computation shared by `buildFieldMap` and `structToNode`:
a tag that is neither empty nor exactly `-` contributes its first
comma-separated segment; otherwise the lower-cased Go field name is used. -/
def fieldLookupName (f : GoField) : String :=
  if f.tag ≠ "" ∧ f.tag ≠ "-" then commaHead f.tag else goToLower f.name

/-- The decoder's `buildFieldMap`: walk the fields in order, skip unexported
fields and fields whose computed name is `-`, and record the rest. -/
def buildFieldMap (fields : List GoField) : List (String × FieldInfo) :=
  fields.enum.foldl
    (fun acc p =>
      if !p.2.exported then acc
      else
        let fieldName := fieldLookupName p.2
        if fieldName = "-" then acc
        else mapAssign acc fieldName ⟨p.1, p.2.tag⟩)
    []

/-- Digit-string accumulation used by the `strconv` models. -/
def digitsToNat (l : List Char) : Nat :=
  l.foldl (fun acc c => 10 * acc + (c.toNat - '0'.toNat)) 0

/-- Go `strconv.ParseInt(value, 10, 64)`: optional sign, decimal digits,
64-bit signed range check.  (Go also returns the clamped value alongside
`ErrRange`; the caller only inspects the error, so `Except` suffices.) -/
def goParseInt64 (s : String) : Except StrconvErr Int :=
  match s.data with
  | [] => .error .syntaxErr
  | c :: rest =>
    let neg := c = '-'
    let digits := if c = '-' ∨ c = '+' then rest else c :: rest
    if digits.isEmpty then .error .syntaxErr
    else if !digits.all Char.isDigit then .error .syntaxErr
    else
      let n := digitsToNat digits
      if neg then
        if 2 ^ 63 < n then .error .rangeErr else .ok (-(n : Int))
      else
        if 2 ^ 63 ≤ n then .error .rangeErr else .ok (n : Int)

/-- Go `strconv.ParseUint(value, 10, 64)`: decimal digits only (no sign),
64-bit range check. -/
def goParseUint64 (s : String) : Except StrconvErr Nat :=
  if s.data.isEmpty then .error .syntaxErr
  else if !s.data.all Char.isDigit then .error .syntaxErr
  else
    let n := digitsToNat s.data
    if 2 ^ 64 ≤ n then .error .rangeErr else .ok n

/-- Go `strconv.ParseBool`. -/
def goParseBool (s : String) : Except StrconvErr Bool :=
  if ["1", "t", "T", "TRUE", "true", "True"].contains s then .ok true
  else if ["0", "f", "F", "FALSE", "false", "False"].contains s then .ok false
  else .error .syntaxErr

/-- Go `reflect.Value.OverflowInt` for a field of the given bit width. -/
def intOverflows (bits : Nat) (n : Int) : Bool :=
  decide (n < -(2 ^ (bits - 1) : Int)) || decide ((2 ^ (bits - 1) : Int) - 1 < n)

/-- Go `reflect.Value.OverflowUint` for a field of the given bit width. -/
def uintOverflows (bits : Nat) (n : Nat) : Bool :=
  decide (2 ^ bits ≤ n)

/-- The decoder's `setScalarValue` for the modelled kinds: strings pass
through; bools via `ParseBool`; integers via 64-bit `ParseInt`/`ParseUint`
followed by the width overflow check (a parse failure is a `TypeError`, a
successful parse that overflows the field width is an `OverflowError`);
any other kind is a validation error. -/
def setScalarValue (kind : GoKind) (value : String) : Except BindErr GoValue :=
  match kind with
  | .stringKind => .ok (.str value)
  | .boolKind =>
    match goParseBool value with
    | .error e => .error (.typeError "bool" value e)
    | .ok b => .ok (.boolean b)
  | .intKind bits =>
    match goParseInt64 value with
    | .error e => .error (.typeError "int" value e)
    | .ok n =>
      if intOverflows bits n then .error (.overflowError "int" value)
      else .ok (.intVal n)
  | .uintKind bits =>
    match goParseUint64 value with
    | .error e => .error (.typeError "uint" value e)
    | .ok n =>
      if uintOverflows bits n then .error (.overflowError "uint" value)
      else .ok (.uintVal n)
  | .unsupported d =>
    .error (.validationError ("unsupported type for scalar value: " ++ d))

/-- The decoder's `setMapValue` outcome for the modelled (non-struct,
non-pointer, non-map) field kinds: the default branch's validation error. -/
def setMapValueKind (kind : GoKind) : BindErr :=
  .validationError ("unsupported type for map value: " ++ kindName kind)

/-- The child loop of `mapNodeToStruct`: for each tree key, resolve a field
by exact match in the field map, then by case-insensitive fallback; unknown
keys are skipped; a map child hits `setMapValue`, a scalar child
`setScalarValue`, and a child with any other variant falls through the
switch (which has no default) and is skipped.  (A nil `*Node` child would be
dereferenced in Go - a runtime panic; it cannot arise in parser-produced
trees and is skipped here.) -/
def bindChildren (fields : List GoField) (fieldMap : List (String × FieldInfo)) :
    Children → List GoValue → Except BindErr (List GoValue)
  | [], vals => .ok vals
  | (key, childPtr) :: rest, vals =>
    let info :=
      match mapGet fieldMap key with
      | some i => some i
      | none => (fieldMap.find? (fun (e : String × FieldInfo) => goEqualFold e.1 key)).map (fun (e : String × FieldInfo) => e.2)
    match info with
    | none => bindChildren fields fieldMap rest vals
    | some i =>
      match childPtr with
      | none => bindChildren fields fieldMap rest vals
      | some child =>
        let kind := ((fields.get? i.index).map GoField.kind).getD (.unsupported "")
        if child.ty = NodeTypeMap then .error (setMapValueKind kind)
        else if child.ty = NodeTypeScalar then
          match setScalarValue kind child.value with
          | .error e => .error e
          | .ok v => bindChildren fields fieldMap rest (vals.set i.index v)
        else bindChildren fields fieldMap rest vals

/-- The decoder's `mapNodeToStruct` for a flat record type: build the field
map once, start from the record's zero values, and bind each child of the
node.  (Go iterates `node.Children` in arbitrary map order; the claims below
use inputs where the order is irrelevant.) -/
def mapNodeToStruct (node : Node) (fields : List GoField) :
    Except BindErr (List GoValue) :=
  bindChildren fields (buildFieldMap fields) node.children
    (fields.map (fun f => zeroValue f.kind))

/-- The encoder's `valueToNode` for the modelled kinds: primitives become
scalar nodes (`FormatBool`, base-10 integer formatting); an unsupported kind
is a validation error.  (Kind/value mismatches cannot occur for well-typed
Go records; the final catch-all is a model artifact.) -/
def valueToNode (kind : GoKind) (v : GoValue) : Except BindErr (Option Node) :=
  match kind, v with
  | .stringKind, .str s => .ok (some (Node.mk NodeTypeScalar s [] "" "" 0 0))
  | .boolKind, .boolean b =>
    .ok (some (Node.mk NodeTypeScalar (if b then "true" else "false") [] "" "" 0 0))
  | .intKind _, .intVal n => .ok (some (Node.mk NodeTypeScalar (toString n) [] "" "" 0 0))
  | .uintKind _, .uintVal n => .ok (some (Node.mk NodeTypeScalar (toString n) [] "" "" 0 0))
  | .unsupported d, _ => .error (.validationError ("unsupported type for encoding: " ++ d))
  | _, _ => .error (.validationError "unsupported type for encoding: mismatched value")

/-- The field loop of the encoder's `structToNode`: skip unexported fields
and fields whose computed name is `-`; otherwise convert the value and store
the child under the computed name. -/
def structFieldsToChildren (entries : List (GoField × GoValue)) (acc : Children) :
    Except BindErr Children :=
  match entries with
  | [] => .ok acc
  | (f, v) :: rest =>
    if !f.exported then structFieldsToChildren rest acc
    else
      let fieldName := fieldLookupName f
      if fieldName = "-" then structFieldsToChildren rest acc
      else
        match valueToNode f.kind v with
        | .error e => .error e
        | .ok none => structFieldsToChildren rest acc
        | .ok (some child) => structFieldsToChildren rest (mapAssign acc fieldName (some child))

/-- The encoder's `structToNode` for a flat record: a map node (Line/Column
zero) whose children come from the exported, non-skipped fields. -/
def structToNode (fields : List GoField) (vals : List GoValue) : Except BindErr Node :=
  (structFieldsToChildren (fields.zip vals) []).map
    (fun cs => Node.mk NodeTypeMap "" cs "" "" 0 0)

/-! ### Specification-side notions used to state the claims -/

/-- A character needing no special treatment per claim C1: not a quote,
brace, backslash or comment marker. -/
def noEscChar (c : Char) : Bool :=
  c ≠ '"' && c ≠ '\x7b' && c ≠ '\x7d' && c ≠ '\\' && c ≠ '/'

/-- A string all of whose characters are unescaped-safe. -/
def noEscStr (s : String) : Bool :=
  s.data.all noEscChar

/-- A usable map key: nonempty (an empty key would be re-read as a key on
decode) and escape-free. -/
def keyOkStr (s : String) : Bool :=
  !(s == "") && noEscStr s

/-- Well-formed comment-free trees, as quantified over by claim C1: scalar
nodes carry an escape-free value, no children and no comments; map nodes
carry no value and no comments, have distinct keys, no nil children, and
well-formed children under nonempty escape-free keys. -/
inductive WfTree : Node → Prop where
  | scalar (v : String) (l c : Int) :
      noEscStr v = true →
      WfTree (Node.mk NodeTypeScalar v [] "" "" l c)
  | map (cs : Children) (l c : Int) :
      (cs.map Prod.fst).Nodup →
      (∀ k n, (k, n) ∈ cs → ∃ m, n = some m) →
      (∀ k m, (k, some m) ∈ cs → keyOkStr k = true) →
      (∀ k m, (k, some m) ∈ cs → WfTree m) →
      WfTree (Node.mk NodeTypeMap "" cs "" "" l c)

mutual

/-- Structural equality of claim C1: all fields except `Line`/`Column`
agree, and the children agree as maps (key sets equal, corresponding
children structurally equal). -/
inductive StructEq : Node → Node → Prop where
  | intro (a b : Node) :
      a.ty = b.ty → a.value = b.value →
      a.headComment = b.headComment → a.lineComment = b.lineComment →
      (∀ k : String, ChildRel (mapGet a.children k) (mapGet b.children k)) →
      StructEq a b

/-- Pointwise relation between the map lookups of two structurally equal
nodes: both absent, both nil, or both present and structurally equal. -/
inductive ChildRel : Option (Option Node) → Option (Option Node) → Prop where
  | absent : ChildRel none none
  | nilChild : ChildRel (some none) (some none)
  | child (m m' : Node) : StructEq m m' → ChildRel (some (some m)) (some (some m'))

end

/-! ### Helper lemmas -/

theorem data_quote : ("\"" : String).data = ['"'] := rfl

theorem data_mk (l : List Char) : (⟨l⟩ : String).data = l := rfl

theorem mk_data (s : String) : (⟨s.data⟩ : String) = s := rfl

/-- Specification of `readKey` on a well-delimited key: the characters up to
the closing quote are appended to the accumulator verbatim (no case
normalization), and the input after the closing quote is untouched. -/
theorem readKey_spec (kcs : List Char) :
    ∀ (rest : List Char) (line column : Int) (acc : List Char),
      (∀ ch ∈ kcs, ch ≠ '"') →
      ∃ l2 c2, readKey (kcs ++ '"' :: rest) line column acc = .ok (⟨acc ++ kcs⟩, rest, l2, c2) := by
  induction kcs with
  | nil => intro rest line column acc _; exact ⟨line, column + 1, by simp [readKey]⟩
  | cons c cs ih =>
    intro rest line column acc hk
    have hc : c ≠ '"' := hk c (by simp)
    obtain ⟨l2, c2, h⟩ :=
      ih rest (if c = '\n' then line + 1 else line) (if c = '\n' then 1 else column + 1)
        (acc ++ [c]) (fun ch hch => hk ch (by simp [hch]))
    refine ⟨l2, c2, ?_⟩
    rw [List.cons_append, readKey]
    simp only [hc, if_false]
    simpa using h

theorem trailingBackslashes_eq_zero (l : List Char) (h : ∀ ch ∈ l, ch ≠ '\\') :
    trailingBackslashes l = 0 := by
  rw [trailingBackslashes]
  rcases hr : l.reverse with _ | ⟨c, t⟩
  · simp
  · have hc : c ∈ l := by
      have : c ∈ l.reverse := by rw [hr]; simp
      simpa using this
    simp [List.takeWhile, h c hc]

/-- Specification of `readValue` on a well-delimited quote- and
backslash-free value: the characters are appended to the accumulator
verbatim, the terminating quote ends the value (no line comment when
`hasLineComment` fails on the remainder), and the scalar node is stored in
the top frame under the current key. -/
theorem readValue_spec (vcs : List Char) :
    ∀ (rest : List Char) (line column : Int) (top : Frame) (srest : List Frame)
      (key headComment : String) (acc : List Char),
      (∀ ch ∈ vcs, ch ≠ '"' ∧ ch ≠ '\\') →
      (∀ ch ∈ acc, ch ≠ '\\') →
      hasLineComment rest = false →
      ∃ l2 c2,
        readValue (vcs ++ '"' :: rest) line column (top :: srest) key headComment acc =
          .ok ({ top with children := mapAssign top.children key (some (Node.mk NodeTypeScalar ⟨acc ++ vcs⟩ [] (goTrimSpace headComment) "" l2 (c2 - ((⟨acc ++ vcs⟩ : String).utf8ByteSize : Int) - 3 - (((acc ++ vcs).count '"' : Nat) : Int)))) } :: srest, rest, l2, c2) := by
  induction vcs with
  | nil =>
    intro rest line column top srest key headComment acc _ hacc hlc
    refine ⟨line, column + 1, ?_⟩
    rw [List.nil_append, readValue]
    simp [trailingBackslashes_eq_zero acc hacc, hlc]
  | cons c cs ih =>
    intro rest line column top srest key headComment acc hv hacc hlc
    have hc := hv c (by simp)
    obtain ⟨l2, c2, h⟩ :=
      ih rest (if c = '\n' then line + 1 else line) (if c = '\n' then 1 else column + 1)
        top srest key headComment (acc ++ [c])
        (fun ch hch => hv ch (by simp [hch]))
        (fun ch hch => by
          rcases (List.mem_append.mp hch) with h1 | h1
          · exact hacc ch h1
          · simp at h1; subst h1; exact hc.2)
        hlc
    refine ⟨l2, c2, ?_⟩
    rw [List.cons_append, readValue]
    simp only [hc.1, if_false]
    simpa using h

theorem parseLoop_nil (l col : Int) (st : List Frame) (k h : String) :
    parseLoop [] l col st k h = (collapse st, none) := by
  rw [parseLoop]

theorem parseLoop_space (rest : List Char) (l col : Int) (st : List Frame) (k h : String) :
    parseLoop (' ' :: rest) l col st k h = parseLoop rest l (col + 1) st k h := by
  rw [parseLoop]
  simp [processRune]

theorem parseLoop_newline (rest : List Char) (l col : Int) (st : List Frame) (k h : String) :
    parseLoop ('\n' :: rest) l col st k h = parseLoop rest (l + 1) 1 st k h := by
  rw [parseLoop]
  simp [processRune]

theorem parseLoop_spaces (n : Nat) (rest : List Char) (l col : Int) (st : List Frame)
    (k h : String) :
    parseLoop (List.replicate n ' ' ++ rest) l col st k h =
      parseLoop rest l (col + (n : Int)) st k h := by
  induction n generalizing col with
  | zero => simp
  | succ m ih =>
    rw [List.replicate_succ, List.cons_append, parseLoop_space, ih]
    congr 1
    omega

theorem parseLoop_openBrace (rest : List Char) (l col : Int) (fr : Frame) (frs : List Frame)
    (k h : String) :
    parseLoop ('\x7b' :: rest) l col (fr :: frs) k h =
      parseLoop rest l (col + 1)
        ({ key := k, line := l, column := col + 1 - 1, headComment := goTrimSpace h,
           children := [] } :: fr :: frs) "" "" := by
  rw [parseLoop]
  simp [processRune]

theorem parseLoop_closeBrace (rest : List Char) (l col : Int) (f g : Frame)
    (frs : List Frame) (k h : String) :
    parseLoop ('\x7d' :: rest) l col (f :: g :: frs) k h =
      parseLoop rest l (col + 1)
        ({ g with children := mapAssign g.children f.key (some (frameNode f)) } :: frs) k h := by
  rw [parseLoop]
  simp [processRune]

theorem parseLoop_key (kcs rest : List Char) (l col : Int) (st : List Frame) (h : String)
    (hk : ∀ ch ∈ kcs, ch ≠ '"') :
    ∃ l2 c2,
      parseLoop ('"' :: (kcs ++ '"' :: rest)) l col st "" h =
        parseLoop rest l2 c2 st ⟨kcs⟩ h := by
  obtain ⟨l2, c2, hr⟩ := readKey_spec kcs rest l (col + 1) [] hk
  refine ⟨l2, c2, ?_⟩
  have hlen : rest.length ≤ (kcs ++ '"' :: rest).length := by
    simp only [List.length_append, List.length_cons]
    omega
  rw [parseLoop]
  simp [processRune, hr, Except.map, hlen]
  all_goals first
  | omega
  | (intro hcon; exact absurd hcon (by omega))

theorem parseLoop_scalarValue (vcs rest : List Char) (l col : Int) (top : Frame)
    (srest : List Frame) (key h : String)
    (hkey : key ≠ "")
    (hv : ∀ ch ∈ vcs, ch ≠ '"' ∧ ch ≠ '\\')
    (hlc : hasLineComment rest = false) :
    ∃ l2 c2 l3 c3,
      parseLoop ('"' :: (vcs ++ '"' :: rest)) l col (top :: srest) key h =
        parseLoop rest l2 c2 ({ top with children := mapAssign top.children key (some (Node.mk NodeTypeScalar ⟨vcs⟩ [] (goTrimSpace h) "" l3 c3)) } :: srest) "" "" := by
  obtain ⟨l2, c2, hr⟩ :=
    readValue_spec vcs rest l (col + 1) top srest key h [] hv (by simp) hlc
  refine ⟨l2, c2, l2, c2 - ((⟨vcs⟩ : String).utf8ByteSize : Int) - 3 - ((vcs.count '"' : Nat) : Int), ?_⟩
  have hlen : rest.length ≤ (vcs ++ '"' :: rest).length := by
    simp only [List.length_append, List.length_cons]
    omega
  rw [parseLoop]
  simp only [List.nil_append] at hr
  simp [processRune, hkey, hr, Except.map, hlen]
  all_goals first
  | omega
  | (intro hcon; exact absurd hcon (by omega))

theorem hasLineCommentScan_no_slash (l : List Char) (h : '/' ∉ l) :
    hasLineCommentScan l = false := by
  induction l with
  | nil => rfl
  | cons c rest ih =>
    have hc : c ≠ '/' := by intro hc; exact h (by simp [hc])
    rw [hasLineCommentScan.eq_def]
    rcases rest with _ | ⟨c2, t⟩
    · simp [hc, hasLineCommentScan]
    · by_cases hsp : goIsSpace c
      · simp only [hsp, if_true]
        exact ih (fun hm => h (List.mem_cons_of_mem _ hm))
      · simp [hsp, hc]

theorem hasLineComment_no_slash (s : List Char) (h : '/' ∉ s) :
    hasLineComment s = false := by
  rw [hasLineComment]
  split
  · rfl
  · exact hasLineCommentScan_no_slash _ (fun hm => h (List.take_subset 20 s hm))

/-- C9: decoding the input `"a" "b"` yields a root Map node with exactly one
child, keyed `a`, which is a Scalar node with value `b` positioned at Line 1,
Column 4, with no error. -/
theorem c9_decode_minimal_pair :
    parse ['"', 'a', '"', ' ', '"', 'b', '"'] =
      (Node.mk NodeTypeMap "" [("a", some (Node.mk NodeTypeScalar "b" [] "" "" 1 4))] "" "" 1 1,
       none) := by
  simp [parse, parseLoop, processRune, readKey, readValue, hasLineComment,
    extractLineComment, goIsSpace, mapAssign, collapse, frameNode, goTrimSpace,
    goTrimSpaceList, NodeTypeScalar, NodeTypeMap, String.utf8ByteSize, trailingBackslashes,
    Except.map, Char.utf8Size, handleComment, readThroughNewline, firstDoubleSlash,
    hasLineCommentScan, goTrimRightNewlines]

/-- C10: a `\x7b` in Neutral mode with no key buffered is not an error: the
new Map child is stored under the empty-string key and pushed, so
`\x7b "a" "b" \x7d` decodes successfully with its content nested under key
`""` (first conjunct); a second such block overwrites the previous
empty-string child (second conjunct). -/
theorem c10_brace_without_key :
    parse ['\x7b', ' ', '"', 'a', '"', ' ', '"', 'b', '"', ' ', '\x7d'] =
      (Node.mk NodeTypeMap ""
        [("", some (Node.mk NodeTypeMap ""
          [("a", some (Node.mk NodeTypeScalar "b" [] "" "" 1 6))] "" "" 1 1))] "" "" 1 1,
       none) ∧
    parse ['\x7b', ' ', '"', 'a', '"', ' ', '"', 'b', '"', ' ', '\x7d', ' ',
           '\x7b', ' ', '"', 'c', '"', ' ', '"', 'd', '"', ' ', '\x7d'] =
      (Node.mk NodeTypeMap ""
        [("", some (Node.mk NodeTypeMap ""
          [("c", some (Node.mk NodeTypeScalar "d" [] "" "" 1 18))] "" "" 1 13))] "" "" 1 1,
       none) := by
  constructor <;>
    simp [parse, parseLoop, processRune, readKey, readValue, hasLineComment,
      extractLineComment, goIsSpace, mapAssign, collapse, frameNode, goTrimSpace,
      goTrimSpaceList, NodeTypeScalar, NodeTypeMap, String.utf8ByteSize, trailingBackslashes,
      Except.map, Char.utf8Size, handleComment, readThroughNewline, firstDoubleSlash,
      hasLineCommentScan, goTrimRightNewlines]

/-- C2 counterexample: decoding `"A" "b"` stores the child under the verbatim
key `A`; there is no child under the lower-cased key `a`, contradicting the
claim that keys are case-normalized to lowercase before being stored. -/
theorem c2_uppercase_key_stored_verbatim :
    parse ['"', 'A', '"', ' ', '"', 'b', '"'] =
      (Node.mk NodeTypeMap "" [("A", some (Node.mk NodeTypeScalar "b" [] "" "" 1 4))] "" "" 1 1,
       none) ∧
    mapGet (parse ['"', 'A', '"', ' ', '"', 'b', '"']).1.children "a" = none := by
  constructor <;>
    simp [parse, parseLoop, processRune, readKey, readValue, hasLineComment,
      extractLineComment, goIsSpace, mapAssign, collapse, frameNode, goTrimSpace,
      goTrimSpaceList, NodeTypeScalar, NodeTypeMap, String.utf8ByteSize, trailingBackslashes,
      Except.map, Char.utf8Size, handleComment, readThroughNewline, firstDoubleSlash,
      hasLineCommentScan, goTrimRightNewlines, mapGet, Node.children]

/-- C2 (amended): while reading a quoted key the parser accumulates the
characters until the closing quote and stores the key verbatim - no case
normalization is applied (the Map child of an uppercase key is stored under
the original-cased key). -/
theorem c2_amended_key_verbatim (kcs rest : List Char) (line column : Int)
    (hk : ∀ ch ∈ kcs, ch ≠ '"') :
    ∃ l2 c2, readKey (kcs ++ '"' :: rest) line column [] = .ok (⟨kcs⟩, rest, l2, c2) := by
  simpa using readKey_spec kcs rest line column [] hk

/-- Witness for `c2_amended_key_verbatim` at the concrete key `A`. -/
theorem c2_amended_key_verbatim_witness :
    (∀ ch ∈ ['A'], ch ≠ '"') ∧
    ∃ l2 c2, readKey (['A'] ++ '"' :: []) 1 1 [] = .ok (⟨['A']⟩, [], l2, c2) :=
  ⟨by decide, c2_amended_key_verbatim ['A'] [] 1 1 (by decide)⟩

/-- C4: when a quote is read while a value is being accumulated, an odd
number of trailing buffered backslashes marks the quote as escaped (the last
backslash is dropped, a literal quote is appended, reading continues); an
even count (including zero) terminates the value (first two conjuncts); in
particular the input `"k" "value with \"quotes\""` decodes to the scalar
`value with "quotes"` (third conjunct). -/
theorem c4_escape_disambiguation :
    (∀ (rest : List Char) (l col : Int) (stack : List Frame) (key head : String)
        (acc : List Char), 0 < acc.length → trailingBackslashes acc % 2 = 1 →
        readValue ('"' :: rest) l col stack key head acc =
          readValue rest l (col + 1) stack key head (acc.dropLast ++ ['"'])) ∧
    (∀ (rest : List Char) (l col : Int) (top : Frame) (srest : List Frame)
        (key head : String) (acc : List Char),
        trailingBackslashes acc % 2 = 0 → hasLineComment rest = false →
        readValue ('"' :: rest) l col (top :: srest) key head acc =
          .ok ({ top with children := mapAssign top.children key (some (Node.mk NodeTypeScalar ⟨acc⟩ [] (goTrimSpace head) "" l (col + 1 - ((⟨acc⟩ : String).utf8ByteSize : Int) - 3 - ((acc.count '"' : Nat) : Int)))) } :: srest, rest, l, col + 1)) ∧
    parse ['"', 'k', '"', ' ', '"', 'v', 'a', 'l', 'u', 'e', ' ', 'w', 'i', 't', 'h', ' ',
           '\\', '"', 'q', 'u', 'o', 't', 'e', 's', '\\', '"', '"'] =
      (Node.mk NodeTypeMap ""
        [("k", some (Node.mk NodeTypeScalar "value with \"quotes\"" [] "" "" 1 4))]
        "" "" 1 1, none) := by
  refine ⟨?_, ?_, ?_⟩
  · intro rest l col stack key head acc h1 h2
    rw [readValue]
    simp [h1, h2]
  · intro rest l col top srest key head acc h1 hlc
    rw [readValue]
    simp [h1, hlc]
  · simp [parse, parseLoop, processRune, readKey, readValue, hasLineComment,
      extractLineComment, goIsSpace, mapAssign, collapse, frameNode, goTrimSpace,
      goTrimSpaceList, NodeTypeScalar, NodeTypeMap, String.utf8ByteSize, trailingBackslashes,
      Except.map, Char.utf8Size, handleComment, readThroughNewline, firstDoubleSlash,
      hasLineCommentScan, goTrimRightNewlines]

/-- C7 counterexample: for `"a" "b" // hi` the comment sits on the same line
as the value with a single space of padding, yet the decoded Scalar carries
an empty `LineComment`: after the value terminates only 6 bytes remain, the
20-byte `Peek` fails, and the comment is never inspected (it ends up in the
discarded head-comment buffer instead).  This contradicts the claim that a
same-line comment is attached no matter the padding. -/
theorem c7_same_line_comment_lost :
    parse ['"', 'a', '"', ' ', '"', 'b', '"', ' ', '/', '/', ' ', 'h', 'i'] =
      (Node.mk NodeTypeMap "" [("a", some (Node.mk NodeTypeScalar "b" [] "" "" 1 4))] "" "" 1 1,
       none) := by
  simp [parse, parseLoop, processRune, readKey, readValue, hasLineComment,
    extractLineComment, goIsSpace, mapAssign, collapse, frameNode, goTrimSpace,
    goTrimSpaceList, NodeTypeScalar, NodeTypeMap, String.utf8ByteSize, trailingBackslashes,
    Except.map, Char.utf8Size, handleComment, readThroughNewline, firstDoubleSlash,
    hasLineCommentScan, goTrimRightNewlines]

theorem hasLineCommentScan_window (ws : List Char) :
    ∀ (n : Nat) (l : List Char), (∀ ch ∈ ws, goIsSpace ch = true) → ws.length + 2 ≤ n →
      hasLineCommentScan (List.take n (ws ++ '/' :: '/' :: l)) = true := by
  induction ws with
  | nil =>
    intro n l _ hn
    obtain ⟨m, rfl⟩ : ∃ m, n = m + 2 := ⟨n - 2, by omega⟩
    simp [hasLineCommentScan, goIsSpace]
  | cons w ws' ih =>
    intro n l hws hn
    obtain ⟨m, rfl⟩ : ∃ m, n = m + 1 := ⟨n - 1, by omega⟩
    have hw : goIsSpace w = true := hws w (by simp)
    have hm : 1 ≤ m := by simp only [List.length_cons] at hn; omega
    have hne : ∃ c2 t2, List.take m (ws' ++ '/' :: '/' :: l) = c2 :: t2 := by
      obtain ⟨p, rfl⟩ : ∃ p, m = p + 1 := ⟨m - 1, by omega⟩
      rcases ws' with _ | ⟨a, b⟩ <;> exact ⟨_, _, rfl⟩
    obtain ⟨c2, t2, he⟩ := hne
    rw [List.cons_append, List.take_succ_cons, hasLineCommentScan.eq_def, he]
    simp only [hw, if_true]
    rw [← he]
    exact ih m l (fun ch hmm => hws ch (by simp [hmm])) (by simp only [List.length_cons] at hn; omega)

theorem readThroughNewline_no_newline (ws : List Char) :
    ∀ (l : List Char), '\n' ∉ ws →
      readThroughNewline (ws ++ l) =
        ((ws ++ (readThroughNewline l).1, (readThroughNewline l).2)) := by
  induction ws with
  | nil => intro l _; rfl
  | cons w ws' ih =>
    intro l hn
    have hw : w ≠ '\n' := by intro hw; exact hn (by simp [hw])
    rw [List.cons_append, readThroughNewline]
    simp [hw, ih l (fun hm => hn (by simp [hm]))]

theorem readThroughNewline_stops_inside (ws : List Char) :
    ∀ (l : List Char), '\n' ∈ ws →
      readThroughNewline (ws ++ l) =
        ((readThroughNewline ws).1, (readThroughNewline ws).2 ++ l) := by
  induction ws with
  | nil => intro l h; simp at h
  | cons w ws' ih =>
    intro l hn
    by_cases hw : w = '\n'
    · subst hw
      rw [List.cons_append, readThroughNewline, readThroughNewline]
      simp
    · have hmem : '\n' ∈ ws' := by
        rcases List.mem_cons.mp hn with h | h
        · exact absurd h.symm hw
        · exact h
      rw [List.cons_append, readThroughNewline, readThroughNewline]
      simp [hw, ih l hmem]

theorem readThroughNewline_fst_subset (l : List Char) :
    ∀ ch ∈ (readThroughNewline l).1, ch ∈ l := by
  induction l with
  | nil => simp [readThroughNewline]
  | cons c rest ih =>
    intro ch hch
    rw [readThroughNewline] at hch
    by_cases hc : c = '\n'
    · simp [hc] at hch
      simp [hch, hc]
    · simp only [hc, if_false] at hch
      have hsplit : ch = c ∨ ch ∈ (readThroughNewline rest).1 := by simpa using hch
      rcases hsplit with h | h
      · simp [h]
      · exact List.mem_cons_of_mem _ (ih ch h)

theorem firstDoubleSlash_after_spaces (ws : List Char) :
    ∀ (l : List Char), '/' ∉ ws →
      firstDoubleSlash (ws ++ '/' :: '/' :: l) = some ws.length := by
  induction ws with
  | nil => intro l _; simp [firstDoubleSlash]
  | cons w ws' ih =>
    intro l hs
    have hw : w ≠ '/' := by intro hw; exact hs (by simp [hw])
    have hne : ∃ c2 t2, ws' ++ '/' :: '/' :: l = c2 :: t2 := by
      rcases ws' with _ | ⟨a, b⟩ <;> simp
    obtain ⟨c2, t2, he⟩ := hne
    rw [List.cons_append, firstDoubleSlash.eq_def, he]
    simp only [hw, false_and, if_false]
    rw [← he, ih l (fun hm => hs (by simp [hm]))]
    simp

theorem hasLineCommentScan_all_space :
    ∀ (l : List Char), (∀ ch ∈ l, goIsSpace ch = true) → hasLineCommentScan l = false := by
  intro l
  induction l with
  | nil => intro _; rfl
  | cons c rest ih =>
    intro h
    have hc : goIsSpace c = true := h c (by simp)
    rcases rest with _ | ⟨c2, t⟩
    · simp [hasLineCommentScan, hc]
    · rw [hasLineCommentScan.eq_def]
      simp only [hc, if_true]
      exact ih (fun ch hm => h ch (by simp [hm]))

theorem hasLineCommentScan_space_single (ws : List Char) :
    ∀ (c : Char), (∀ ch ∈ ws, goIsSpace ch = true) →
      hasLineCommentScan (ws ++ [c]) = false := by
  induction ws with
  | nil =>
    intro c _
    cases hgc : goIsSpace c <;> simp [hasLineCommentScan, hgc]
  | cons w ws' ih =>
    intro c h
    have hw : goIsSpace w = true := h w (by simp)
    have hne : ∃ c2 t2, ws' ++ [c] = c2 :: t2 := by
      rcases ws' with _ | ⟨a, b⟩ <;> exact ⟨_, _, rfl⟩
    obtain ⟨c2, t2, he⟩ := hne
    rw [List.cons_append, hasLineCommentScan.eq_def, he]
    simp only [hw, if_true]
    rw [← he]
    exact ih c (fun ch hm => h ch (by simp [hm]))

theorem firstDoubleSlash_none (l : List Char) (h : '/' ∉ l) :
    firstDoubleSlash l = none := by
  induction l with
  | nil => rfl
  | cons c rest ih =>
    have hc : c ≠ '/' := by intro hc; exact h (by simp [hc])
    rw [firstDoubleSlash.eq_def]
    rcases rest with _ | ⟨c2, t⟩
    · rfl
    · simp only [hc, false_and, if_false]
      rw [ih (fun hm => h (List.mem_cons_of_mem _ hm))]
      rfl

/-- C7 (amended): after a quoted value terminates, the decoder searches for a
`//` comment only within a 20-byte lookahead window.  (i) When at least 20
bytes remain and the remainder starts with space/tab padding followed by
`//` within the window, the comment is detected, and (ii) its text is the
trimmed remainder of the current physical line after the `//`.  (iii) When
fewer than 20 bytes remain, no comment is detected, regardless of content.
(iv) The scan skips newlines too, but a `//` first reached after a newline
yields an empty comment (the extraction searches only the current line), so
a comment on a following line is never attached.  (v) When the `//` starts
beyond the 20-byte window - at least 19 bytes of space padding precede it,
so the second slash falls outside the peeked bytes - no comment is
detected either, no matter how many bytes remain in the input. -/
theorem c7_amended_line_comment_window (ws tail : List Char)
    (hws : ∀ ch ∈ ws, ch = ' ' ∨ ch = '\t')
    (hwin : ws.length + 2 ≤ 20)
    (hlen : 20 ≤ (ws ++ '/' :: '/' :: tail).length) :
    hasLineComment (ws ++ '/' :: '/' :: tail) = true ∧
    (extractLineComment (ws ++ '/' :: '/' :: tail)).1 =
      goTrimSpace ⟨(readThroughNewline tail).1⟩ ∧
    (∀ s : List Char, s.length < 20 → hasLineComment s = false) ∧
    (∀ ws2 tail2 : List Char, (∀ ch ∈ ws2, goIsSpace ch = true) → '/' ∉ ws2 → '\n' ∈ ws2 →
      (extractLineComment (ws2 ++ '/' :: '/' :: tail2)).1 = "") ∧
    (∀ ws3 tail3 : List Char, (∀ ch ∈ ws3, ch = ' ' ∨ ch = '\t') → 19 ≤ ws3.length →
      hasLineComment (ws3 ++ '/' :: '/' :: tail3) = false) := by
  have hsp : ∀ ch ∈ ws, goIsSpace ch = true := by
    intro ch hm
    rcases hws ch hm with h | h <;> simp [h, goIsSpace]
  have hnosl : '/' ∉ ws := by
    intro hm
    rcases hws '/' hm with h | h <;> simp at h
  have hnonl : '\n' ∉ ws := by
    intro hm
    rcases hws '\n' hm with h | h <;> simp at h
  have hlen2 : 20 ≤ ws.length + (tail.length + 2) := by
    simpa using hlen
  refine ⟨?_, ?_, ?_, ?_, ?_⟩
  · rw [hasLineComment]
    rw [if_neg (by simp only [List.length_append, List.length_cons]; omega)]
    exact hasLineCommentScan_window ws 20 tail hsp hwin
  · have h2 : readThroughNewline ('/' :: '/' :: tail) =
        ('/' :: '/' :: (readThroughNewline tail).1, (readThroughNewline tail).2) := by
      simp [readThroughNewline]
    have hdrop : List.drop (ws.length + 2) (ws ++ '/' :: '/' :: (readThroughNewline tail).1) =
        (readThroughNewline tail).1 := by
      have hsplit : ws ++ '/' :: '/' :: (readThroughNewline tail).1 =
          (ws ++ ['/', '/']) ++ (readThroughNewline tail).1 := by simp
      rw [hsplit, List.drop_left' (by simp)]
    rw [extractLineComment]
    rw [readThroughNewline_no_newline ws ('/' :: '/' :: tail) hnonl]
    rw [h2]
    simp only
    rw [firstDoubleSlash_after_spaces ws _ hnosl]
    simp only
    rw [hdrop]
  · intro s hs
    rw [hasLineComment]
    simp [hs]
  · intro ws2 tail2 _ hsl hnl
    rw [extractLineComment]
    rw [readThroughNewline_stops_inside ws2 _ hnl]
    simp only
    rw [firstDoubleSlash_none _ (fun hm => hsl (readThroughNewline_fst_subset ws2 '/' hm))]
  · intro ws3 tail3 hws3 hlen3
    have hsp3 : ∀ ch ∈ ws3, goIsSpace ch = true := by
      intro ch hm
      rcases hws3 ch hm with h | h <;> simp [h, goIsSpace]
    rw [hasLineComment]
    rw [if_neg (by simp only [List.length_append, List.length_cons]; omega)]
    by_cases h19 : ws3.length = 19
    · have ht : List.take 20 (ws3 ++ '/' :: '/' :: tail3) = ws3 ++ ['/'] := by
        rw [List.take_append_eq_append_take, List.take_of_length_le (by omega), h19]
        simp
      rw [ht]
      exact hasLineCommentScan_space_single ws3 '/' hsp3
    · have ht : List.take 20 (ws3 ++ '/' :: '/' :: tail3) = List.take 20 ws3 := by
        rw [List.take_append_eq_append_take]
        rw [show 20 - ws3.length = 0 from by omega]
        simp
      rw [ht]
      exact hasLineCommentScan_all_space _ (fun ch hm => hsp3 ch ((List.take_subset 20 ws3) hm))

/-- Witness for `c7_amended_line_comment_window`: one space of padding, a
comment `hi`, and enough following bytes for the 20-byte window. -/
theorem c7_amended_line_comment_window_witness :
    ((∀ ch ∈ [' '], ch = ' ' ∨ ch = '\t') ∧ ([' '] : List Char).length + 2 ≤ 20 ∧
      20 ≤ (([' '] : List Char) ++ '/' :: '/' :: ['h', 'i', '\n', 'a', 'b', 'c', 'd', 'e', 'f', 'g', 'h', 'i', 'j', 'k', 'l', 'm', 'n']).length) ∧
    (hasLineComment (([' '] : List Char) ++ '/' :: '/' :: ['h', 'i', '\n', 'a', 'b', 'c', 'd', 'e', 'f', 'g', 'h', 'i', 'j', 'k', 'l', 'm', 'n']) = true ∧
     (extractLineComment (([' '] : List Char) ++ '/' :: '/' :: ['h', 'i', '\n', 'a', 'b', 'c', 'd', 'e', 'f', 'g', 'h', 'i', 'j', 'k', 'l', 'm', 'n'])).1 =
       goTrimSpace ⟨(readThroughNewline ['h', 'i', '\n', 'a', 'b', 'c', 'd', 'e', 'f', 'g', 'h', 'i', 'j', 'k', 'l', 'm', 'n']).1⟩ ∧
     (∀ s : List Char, s.length < 20 → hasLineComment s = false) ∧
     (∀ ws2 tail2 : List Char, (∀ ch ∈ ws2, goIsSpace ch = true) → '/' ∉ ws2 → '\n' ∈ ws2 →
       (extractLineComment (ws2 ++ '/' :: '/' :: tail2)).1 = "") ∧
     (∀ ws3 tail3 : List Char, (∀ ch ∈ ws3, ch = ' ' ∨ ch = '\t') → 19 ≤ ws3.length →
       hasLineComment (ws3 ++ '/' :: '/' :: tail3) = false)) :=
  ⟨⟨by decide, by decide, by decide⟩,
   c7_amended_line_comment_window [' '] ['h', 'i', '\n', 'a', 'b', 'c', 'd', 'e', 'f', 'g', 'h', 'i', 'j', 'k', 'l', 'm', 'n'] (by decide) (by decide) (by decide)⟩

/-- C6 counterexample: decoding `"age" "9223372036854775808"` (one past
MaxInt64) into a record whose `age` field is a 64-bit signed integer fails
with a `TypeError` wrapping strconv's range error - not with an
`OverflowError`: `ParseInt(value, 10, 64)` itself fails, so the
`OverflowInt` width check (which produces `OverflowError`) is never
reached for 64-bit fields.  (The repository's own test expects the
`value out of range` message of the `TypeError` path.) -/
theorem c6_int64_range_is_type_error :
    mapNodeToStruct
        (Node.mk NodeTypeMap ""
          [("age", some (Node.mk NodeTypeScalar "9223372036854775808" [] "" "" 1 7))] "" "" 1 1)
        [⟨"Age", "age", true, .intKind 64⟩] =
      .error (.typeError "int" "9223372036854775808" .rangeErr) ∧
    ∀ ty v, mapNodeToStruct
        (Node.mk NodeTypeMap ""
          [("age", some (Node.mk NodeTypeScalar "9223372036854775808" [] "" "" 1 7))] "" "" 1 1)
        [⟨"Age", "age", true, .intKind 64⟩] ≠
      .error (.overflowError ty v) := by
  constructor
  · rfl
  · intro ty v h
    rw [(show mapNodeToStruct
        (Node.mk NodeTypeMap ""
          [("age", some (Node.mk NodeTypeScalar "9223372036854775808" [] "" "" 1 7))] "" "" 1 1)
        [⟨"Age", "age", true, .intKind 64⟩] =
      .error (.typeError "int" "9223372036854775808" .rangeErr) from rfl)] at h
    exact BindErr.noConfusion (Except.error.inj h)

/-- C6 (amended): the distinct `OverflowError` arises exactly when the value
parses within 64 bits but does not fit the narrower target field width
(int8/int16/int32): the parse succeeds and `OverflowInt` detects the
width overflow - no clamp or wraparound. -/
theorem c6_amended_narrow_width_overflow (bits : Nat) (value : String) (n : Int)
    (hparse : goParseInt64 value = .ok n)
    (hover : intOverflows bits n = true) :
    setScalarValue (.intKind bits) value = .error (.overflowError "int" value) := by
  rw [setScalarValue, hparse]
  simp [hover]

/-- Witness for `c6_amended_narrow_width_overflow`: the value `300` parses
but overflows an 8-bit signed field. -/
theorem c6_amended_narrow_width_overflow_witness :
    (goParseInt64 "300" = .ok 300 ∧ intOverflows 8 300 = true) ∧
    setScalarValue (.intKind 8) "300" = .error (.overflowError "int" "300") :=
  ⟨⟨rfl, rfl⟩, c6_amended_narrow_width_overflow 8 "300" 300 rfl rfl⟩

/-- C5: evaluation of the binding layer at the claim's failing inputs.  A
field whose `vdf` tag is exactly `-` is *not* skipped: the guard
`vdfTag != "" && vdfTag != "-"` routes the tag `-` to the else branch, so
the lookup name becomes the lower-cased field name and the dead
`fieldName == "-"` check (whose comment says "Skip fields with -.tag") never
fires.  Consequently `buildFieldMap` records the field, a matching input key
binds it on decode, and `structToNode` emits it on encode. -/
theorem c5_dash_tag_not_skipped :
    buildFieldMap [⟨"Key", "-", true, .stringKind⟩] = [("key", ⟨0, "-"⟩)] ∧
    mapNodeToStruct
        (Node.mk NodeTypeMap "" [("key", some (Node.mk NodeTypeScalar "value" [] "" "" 1 7))] "" "" 1 1)
        [⟨"Key", "-", true, .stringKind⟩] = .ok [.str "value"] ∧
    structToNode [⟨"Hidden", "-", true, .stringKind⟩] [.str "hidden"] =
      .ok (Node.mk NodeTypeMap "" [("hidden", some (Node.mk NodeTypeScalar "hidden" [] "" "" 0 0))] "" "" 0 0) := by
  exact ⟨rfl, rfl, rfl⟩

/-- C8 counterexample: a Map node with a nil child encodes successfully -
the nil child is silently skipped (`continue`), not reported as a
"nil node" error as the claim states; only a nil node reached at the top
level of `encodeNode` produces `ErrNilNode`. -/
theorem c8_nil_child_skipped_not_error :
    encodeNode (some (Node.mk NodeTypeMap ""
        [("a", none), ("b", some (Node.mk NodeTypeScalar "x" [] "" "" 0 0))] "" "" 0 0)) 0 =
      .ok ("\"b\" \"x\"\n") := by
  have hsort : sortStrings ["a", "b"] = ["a", "b"] := by
    rw [sortStrings]
    refine List.mergeSort_of_sorted ?_
    simp [List.pairwise_cons]
    decide
  simp [encodeNode, encodeMap, encodeEntries, Node.ty, Node.children, Node.value,
    Node.headComment, Node.lineComment, NodeTypeMap, NodeTypeScalar, hsort, mapGet,
    List.find?, writeIndent, writeQuotedString, goRepeat, writeHeadComment]

/-- C8 (amended): encoding a nil value fails with the "nil value" error and
a nil top-level node with the "nil node" error; a top-level node with an
unknown variant tag fails with a validation error naming the tag; but a nil
node reached inside a Map node's children is skipped silently rather than
reported. -/
theorem c8_amended_encode_failures :
    Encode none = .error .nilValue ∧
    Encode (some none) = .error .nilNode ∧
    (∀ (t : Nat) (v : String) (cs : Children) (hc lc : String) (l c : Int),
        t ≠ NodeTypeMap → t ≠ NodeTypeScalar →
        encodeNode (some (Node.mk t v cs hc lc l c)) 0 =
          .error (.validation ("unknown node type: " ++ toString t))) ∧
    (∀ (children : Children) (keys : List String) (key : String) (i : Nat),
        mapGet children key = some none →
        encodeEntries children (key :: keys) i = encodeEntries children keys i) := by
  refine ⟨rfl, rfl, ?_, ?_⟩
  · intro t v cs hc lc l c h0 h1
    rw [encodeNode]
    simp [Node.ty, h0, h1]
  · intro children keys key i h
    rw [encodeEntries]
    split
    · simp
    · rename_i child heq
      rw [h] at heq
      simp at heq

/-- Witness for `c8_amended_encode_failures` at an unknown tag 7 and a
concrete nil child. -/
theorem c8_amended_encode_failures_witness :
    ((7 : Nat) ≠ NodeTypeMap ∧ (7 : Nat) ≠ NodeTypeScalar ∧
      mapGet [("a", (none : Option Node))] "a" = some none) ∧
    (encodeNode (some (Node.mk 7 "" [] "" "" 0 0)) 0 =
        .error (.validation ("unknown node type: " ++ toString (7 : Nat))) ∧
      encodeEntries [("a", none)] ("a" :: []) 0 = encodeEntries [("a", none)] [] 0) :=
  ⟨⟨by decide, by decide, rfl⟩,
   ⟨c8_amended_encode_failures.2.2.1 7 "" [] "" "" 0 0 (by decide) (by decide),
    c8_amended_encode_failures.2.2.2 [("a", none)] [] "a" 0 rfl⟩⟩

theorem mapGet_perm {α : Type} {l l' : List (String × α)} (hp : l.Perm l') :
    (l.map Prod.fst).Nodup → ∀ k, mapGet l k = mapGet l' k := by
  induction hp with
  | nil => intro _ k; rfl
  | @cons x t1 t2 hp ih =>
    intro hnd k
    have hnd2 : (t1.map Prod.fst).Nodup := by
      rw [List.map_cons] at hnd
      exact (List.nodup_cons.mp hnd).2
    cases hxk : (x.1 == k) with
    | true => simp [mapGet, List.find?_cons, hxk]
    | false =>
      have hmg := ih hnd2 k
      simp only [mapGet] at hmg ⊢
      simp [List.find?_cons, hxk, hmg]
  | swap x y t =>
    intro hnd k
    have hxy : y.1 ≠ x.1 := by
      simp only [List.map_cons, List.nodup_cons] at hnd
      exact fun he => hnd.1 (by simp [he])
    cases hxk : (x.1 == k) with
    | true =>
      cases hyk : (y.1 == k) with
      | true =>
        exact absurd ((eq_of_beq hyk).trans (eq_of_beq hxk).symm) hxy
      | false => simp [mapGet, List.find?_cons, hxk, hyk]
    | false =>
      cases hyk : (y.1 == k) with
      | true => simp [mapGet, List.find?_cons, hxk, hyk]
      | false => simp [mapGet, List.find?_cons, hxk, hyk]
  | trans h1 h2 ih1 ih2 =>
    intro hnd k
    refine (ih1 hnd k).trans (ih2 ?_ k)
    exact (List.Perm.nodup_iff (h1.map Prod.fst)).mp hnd

theorem encodeEntries_congr (children children' : Children) (i : Nat)
    (h : ∀ k, mapGet children k = mapGet children' k) :
    ∀ ks, encodeEntries children ks i = encodeEntries children' ks i := by
  intro ks
  induction ks with
  | nil => rw [encodeEntries, encodeEntries]
  | cons k ks ih =>
    rw [encodeEntries, encodeEntries, h k, ih]

theorem sortStrings_sorted (xs : List String) :
    List.Sorted (· ≤ ·) (sortStrings xs) := by
  have htrans : ∀ (a b c : String),
      (fun a b => decide (a ≤ b)) a b → (fun a b => decide (a ≤ b)) b c →
        (fun a b => decide (a ≤ b)) a c := by
    intro a b c hab hbc
    simp only [decide_eq_true_eq] at hab hbc ⊢
    exact le_trans hab hbc
  have htotal : ∀ (a b : String),
      ((fun a b => decide (a ≤ b)) a b || (fun a b => decide (a ≤ b)) b a) = true := by
    intro a b
    simp only [Bool.or_eq_true, decide_eq_true_eq]
    exact le_total a b
  have hp := @List.sorted_mergeSort String (fun a b => decide (a ≤ b)) htrans htotal xs
  rw [sortStrings]
  exact hp.imp (fun hab => by simpa using hab)

/-- C3: encoding is deterministic - a Map node's children are emitted in
sorted key order regardless of the order in which they were inserted: two
children maps holding the same entries in different insertion orders (with
distinct keys, as a Go map guarantees) produce byte-identical `encodeMap`
output.  (Encoding the same tree twice is byte-identical trivially, since
the embedded encoder is a pure function of the tree.) -/
theorem c3_encode_deterministic (v hc lc : String) (l c : Int) (cs cs' : Children) (i : Nat)
    (hperm : cs.Perm cs') (hnodup : (cs.map Prod.fst).Nodup) :
    encodeMap (Node.mk NodeTypeMap v cs hc lc l c) i =
      encodeMap (Node.mk NodeTypeMap v cs' hc lc l c) i := by
  have hlen := hperm.length_eq
  rw [encodeMap, encodeMap]
  simp only [Node.children]
  by_cases h0 : cs.length = 0
  · rw [if_pos h0, if_pos (by omega)]
  · rw [if_neg h0, if_neg (by omega)]
    have hpk : (cs.map Prod.fst).Perm (cs'.map Prod.fst) := hperm.map _
    have hkeys : sortStrings (cs.map Prod.fst) = sortStrings (cs'.map Prod.fst) := by
      apply List.eq_of_perm_of_sorted
        ((List.mergeSort_perm _ _).trans (hpk.trans (List.mergeSort_perm _ _).symm))
        (sortStrings_sorted _) (sortStrings_sorted _)
    rw [hkeys]
    exact encodeEntries_congr cs cs' i (mapGet_perm hperm hnodup) _

/-- Witness for `c3_encode_deterministic`: two insertion orders of the same
two children. -/
theorem c3_encode_deterministic_witness :
    (([("b", some (Node.mk NodeTypeScalar "1" [] "" "" 0 0)), ("a", some (Node.mk NodeTypeScalar "2" [] "" "" 0 0))] : Children).Perm
        [("a", some (Node.mk NodeTypeScalar "2" [] "" "" 0 0)), ("b", some (Node.mk NodeTypeScalar "1" [] "" "" 0 0))] ∧
      (([("b", some (Node.mk NodeTypeScalar "1" [] "" "" 0 0)), ("a", some (Node.mk NodeTypeScalar "2" [] "" "" 0 0))] : Children).map Prod.fst).Nodup) ∧
    encodeMap (Node.mk NodeTypeMap ""
        [("b", some (Node.mk NodeTypeScalar "1" [] "" "" 0 0)), ("a", some (Node.mk NodeTypeScalar "2" [] "" "" 0 0))] "" "" 0 0) 0 =
      encodeMap (Node.mk NodeTypeMap ""
        [("a", some (Node.mk NodeTypeScalar "2" [] "" "" 0 0)), ("b", some (Node.mk NodeTypeScalar "1" [] "" "" 0 0))] "" "" 0 0) 0 :=
  ⟨⟨List.Perm.swap _ _ _, by decide⟩,
   c3_encode_deterministic "" "" "" 0 0 _ _ 0 (List.Perm.swap _ _ _) (by decide)⟩

theorem mapGet_assign_self {α : Type} (l : List (String × α)) (k : String) (v : α) :
    mapGet (mapAssign l k v) k = some v := by
  induction l with
  | nil => simp [mapAssign, mapGet, List.find?_cons]
  | cons e rest ih =>
    rw [mapAssign]
    by_cases he : e.1 = k
    · rcases e with ⟨k1, v1⟩
      simp only at he
      simp [he, mapGet, List.find?_cons]
    · rcases e with ⟨k1, v1⟩
      simp only at he
      rw [if_neg he]
      simp only [mapGet, List.find?_cons] at ih ⊢
      rw [show (k1 == k) = false by simpa using he]
      simpa using ih

theorem mapGet_assign_other {α : Type} (l : List (String × α)) (k k2 : String) (v : α)
    (hne : k2 ≠ k) : mapGet (mapAssign l k v) k2 = mapGet l k2 := by
  induction l with
  | nil =>
    simp only [mapAssign, mapGet, List.find?_cons, List.find?_nil]
    rw [show (k == k2) = false by simpa using fun he => hne (by simp [he])]
  | cons e rest ih =>
    rw [mapAssign]
    rcases e with ⟨k1, v1⟩
    by_cases he : k1 = k
    · rw [if_pos he]
      subst he
      simp only [mapGet, List.find?_cons]
      rw [show (k1 == k2) = false by simpa using fun hx => hne (by simp [hx])]
    · rw [if_neg he]
      simp only [mapGet, List.find?_cons] at ih ⊢
      cases hx : (k1 == k2) with
      | true => rfl
      | false => simpa using ih

theorem mapGet_of_mem_keys {α : Type} (l : List (String × α)) (k : String)
    (h : k ∈ l.map Prod.fst) : ∃ v, mapGet l k = some v := by
  induction l with
  | nil => simp at h
  | cons e rest ih =>
    rcases e with ⟨k1, v1⟩
    by_cases he : k1 = k
    · exact ⟨v1, by simp [mapGet, List.find?_cons, he]⟩
    · have hmem : k ∈ rest.map Prod.fst := by
        rcases (by simpa using h : k = k1 ∨ k ∈ rest.map Prod.fst) with hx | hx
        · exact absurd hx.symm he
        · exact hx
      obtain ⟨v, hv⟩ := ih hmem
      refine ⟨v, ?_⟩
      simp only [mapGet, List.find?_cons] at hv ⊢
      rw [show (k1 == k) = false by simpa using he]
      exact hv

theorem mapGet_mem {α : Type} (l : List (String × α)) (k : String) (v : α)
    (h : mapGet l k = some v) : (k, v) ∈ l := by
  rw [mapGet] at h
  rcases hf : l.find? (fun e => e.1 == k) with _ | e
  · rw [hf] at h; cases h
  · rw [hf] at h
    have hp := List.find?_some hf
    have hmem := List.mem_of_find?_eq_some hf
    rcases e with ⟨k1, v1⟩
    simp only [Option.map] at h
    injection h with h
    subst h
    rw [show k1 = k by simpa using hp] at hmem
    exact hmem

theorem mapGet_eq_none_of_not_mem {α : Type} (l : List (String × α)) (k : String)
    (h : k ∉ l.map Prod.fst) : mapGet l k = none := by
  rw [mapGet]
  rw [List.find?_eq_none.mpr]
  · rfl
  · intro e hmem hp
    exact h (List.mem_map.mpr ⟨e, hmem, by simpa using hp⟩)

theorem writeIndent_data (i : Nat) : (writeIndent i).data = List.replicate (4 * i) ' ' := by
  induction i with
  | zero => rfl
  | succ m ih =>
    rw [writeIndent, goRepeat, String.data_append]
    rw [show goRepeat "    " m = writeIndent m from rfl, ih]
    rw [show (4 * (m + 1)) = 4 + 4 * m by ring, List.replicate_add]
    rfl

theorem noEscStr_spec (s : String) (h : noEscStr s = true) :
    ∀ ch ∈ s.data, ch ≠ '"' ∧ ch ≠ '\x7b' ∧ ch ≠ '\x7d' ∧ ch ≠ '\\' ∧ ch ≠ '/' := by
  intro ch hm
  have hp := List.all_eq_true.mp h ch hm
  simpa [noEscChar, and_assoc] using hp

theorem keyOkStr_spec (s : String) (h : keyOkStr s = true) :
    s ≠ "" ∧ noEscStr s = true := by
  rw [keyOkStr, Bool.and_eq_true] at h
  refine ⟨?_, h.2⟩
  simpa using h.1

theorem noEscStr_no_slash (s : String) (h : noEscStr s = true) : '/' ∉ s.data :=
  fun hm => ((noEscStr_spec s h '/' hm).2.2.2.2) rfl

theorem sizeOf_child_lt (cs : Children) (k : String) (c : Node)
    (h : (k, some c) ∈ cs) : sizeOf c < sizeOf cs := by
  have h1 := List.sizeOf_lt_of_mem h
  simp at h1
  omega

theorem sizeOf_children_lt (c : Node) : sizeOf c.children < sizeOf c := by
  cases c
  simp [Node.children]
  omega

theorem encodeEntries_no_slash :
    ∀ (n : Nat) (cs : Children), sizeOf cs ≤ n →
      (∀ k nn, (k, nn) ∈ cs → ∃ m, nn = some m) →
      (∀ k m, (k, some m) ∈ cs → keyOkStr k = true) →
      (∀ k m, (k, some m) ∈ cs → WfTree m) →
      ∀ (ks : List String) (i : Nat), (∀ k ∈ ks, k ∈ cs.map Prod.fst) →
        '/' ∉ (encodeEntries cs ks i).data := by
  intro n
  induction n using Nat.strong_induction_on with
  | _ n IH =>
    intro cs hsz hnil hkeys hwfs ks i hks
    induction ks with
    | nil => rw [encodeEntries]; simp
    | cons k ks ih =>
      have hmemk : k ∈ cs.map Prod.fst := hks k (by simp)
      obtain ⟨v, hv⟩ := mapGet_of_mem_keys cs k hmemk
      have hkv := mapGet_mem cs k v hv
      obtain ⟨c, rfl⟩ := hnil k v hkv
      have hkeyok := keyOkStr_spec k (hkeys k c hkv)
      have hwfc := hwfs k c hkv
      have htail : '/' ∉ (encodeEntries cs ks i).data := ih (fun k2 hm => hks k2 (by simp [hm]))
      rw [encodeEntries, hv]
      cases hwfc with
      | scalar v2 lc cc hnoesc =>
        simp only [Option.getD_some, Node.headComment, Node.ty, Node.value, Node.lineComment,
          NodeTypeMap, NodeTypeScalar, writeQuotedString]
        simp [String.data_append, writeIndent_data, List.mem_append, List.mem_replicate,
          noEscStr_no_slash _ hkeyok.2, noEscStr_no_slash _ hnoesc, htail]
      | map ccs lc cc hnd hnil2 hkeys2 hwfs2 =>
        have hmapslash : '/' ∉ (encodeMap (Node.mk 0 "" ccs "" "" lc cc) (i + 1)).data := by
          rw [encodeMap]
          by_cases h0 : (Node.mk 0 "" ccs "" "" lc cc).children.length = 0
          · rw [if_pos h0]; simp
          · rw [if_neg h0]
            have hszc : sizeOf ccs < n := by
              have h1 := sizeOf_child_lt cs k _ hkv
              have h2 := sizeOf_children_lt (Node.mk NodeTypeMap "" ccs "" "" lc cc)
              simp only [Node.children] at h2
              omega
            refine IH (sizeOf ccs) (by omega) ccs le_rfl hnil2 hkeys2 hwfs2 _ (i + 1) ?_
            intro k2 hm
            rw [sortStrings] at hm
            simp only [Node.children] at hm ⊢
            exact List.mem_mergeSort.mp hm
        simp only [Option.getD_some, Node.headComment, Node.ty, Node.value, Node.lineComment,
          Node.children, NodeTypeMap, NodeTypeScalar, writeQuotedString]
        simp [String.data_append, writeIndent_data, List.mem_append, List.mem_replicate,
          noEscStr_no_slash _ hkeyok.2, hmapslash, htail]

theorem data_space : (" " : String).data = [' '] := rfl

theorem data_newline : ("\n" : String).data = ['\n'] := rfl

theorem data_openBrace : (" \x7b\n" : String).data = [' ', '\x7b', '\n'] := rfl

theorem data_closeBrace : ("\x7d\n" : String).data = ['\x7d', '\n'] := rfl

theorem data_empty : ("" : String).data = [] := rfl

theorem goTrimSpace_empty : goTrimSpace "" = "" := rfl

theorem encodeEntries_sim :
    ∀ (n : Nat) (cs : Children), sizeOf cs ≤ n →
      (∀ k nn, (k, nn) ∈ cs → ∃ m, nn = some m) →
      (∀ k m, (k, some m) ∈ cs → keyOkStr k = true) →
      (∀ k m, (k, some m) ∈ cs → WfTree m) →
      ∀ (ks : List String), (∀ k ∈ ks, k ∈ cs.map Prod.fst) →
      ∀ (i : Nat) (fr : Frame) (frs : List Frame) (rest : List Char) (l col : Int),
        '/' ∉ rest →
        ∃ ch2 l2 c2,
          parseLoop ((encodeEntries cs ks i).data ++ rest) l col (fr :: frs) "" "" =
            parseLoop rest l2 c2 ({ fr with children := ch2 } :: frs) "" "" ∧
          (∀ k ∈ ks, ChildRel (mapGet ch2 k) (mapGet cs k)) ∧
          (∀ k, k ∉ ks → mapGet ch2 k = mapGet fr.children k) := by
  intro n
  induction n using Nat.strong_induction_on with
  | _ n IH =>
    intro cs hsz hnil hkeys hwfs ks
    induction ks with
    | nil =>
      intro hks i fr frs rest l col hsl
      refine ⟨fr.children, l, col, ?_, by simp, fun k _ => rfl⟩
      rw [encodeEntries]
      simp
    | cons k ks ihks =>
      intro hks i fr frs rest l col hsl
      have hmemk : k ∈ cs.map Prod.fst := hks k (by simp)
      obtain ⟨v, hv⟩ := mapGet_of_mem_keys cs k hmemk
      have hkv := mapGet_mem cs k v hv
      obtain ⟨c, rfl⟩ := hnil k v hkv
      have hkeyok := keyOkStr_spec k (hkeys k c hkv)
      have hknq : ∀ ch ∈ k.data, ch ≠ '"' :=
        fun ch hm => (noEscStr_spec k hkeyok.2 ch hm).1
      have hwfc := hwfs k c hkv
      have htailslash : '/' ∉ (encodeEntries cs ks i).data :=
        encodeEntries_no_slash n cs hsz hnil hkeys hwfs ks i
          (fun k2 hm => hks k2 (by simp [hm]))
      rw [encodeEntries, hv]
      cases hwfc with
      | scalar v2 lc cc hnoesc =>
        simp only [Option.getD_some, Node.headComment, Node.ty, Node.value, Node.lineComment,
          NodeTypeMap, NodeTypeScalar, writeQuotedString]
        simp only [ne_eq, not_true_eq_false, if_false, if_true, ite_true, ite_false,
          Nat.one_ne_zero, String.data_append, data_quote, data_space, data_newline,
          data_empty, writeIndent_data, List.append_assoc, List.cons_append,
          List.nil_append, List.append_nil, List.singleton_append]
        rw [parseLoop_spaces]
        obtain ⟨l2, c2, hkeystep⟩ :=
          parseLoop_key k.data
            (' ' :: '"' :: (v2.data ++ '"' :: '\n' :: ((encodeEntries cs ks i).data ++ rest)))
            l (col + (4 * i : Nat)) (fr :: frs) "" hknq
        rw [hkeystep, mk_data, parseLoop_space]
        have hvchars : ∀ ch ∈ v2.data, ch ≠ '"' ∧ ch ≠ '\\' := fun ch hm =>
          ⟨(noEscStr_spec v2 hnoesc ch hm).1, (noEscStr_spec v2 hnoesc ch hm).2.2.2.1⟩
        have hlc : hasLineComment ('\n' :: ((encodeEntries cs ks i).data ++ rest)) = false := by
          refine hasLineComment_no_slash _ ?_
          intro hm
          rcases List.mem_cons.mp hm with h | h
          · exact absurd h (by decide)
          · rcases List.mem_append.mp h with h2 | h2
            · exact htailslash h2
            · exact hsl h2
        obtain ⟨l3, c3, l4, c4, hvalstep⟩ :=
          parseLoop_scalarValue v2.data ('\n' :: ((encodeEntries cs ks i).data ++ rest))
            l2 (c2 + 1) fr frs k "" hkeyok.1 hvchars hlc
        rw [hvalstep, mk_data, goTrimSpace_empty, parseLoop_newline]
        obtain ⟨ch2, l5, c5, hrest, hin, hout⟩ :=
          ihks (fun k2 hm => hks k2 (by simp [hm])) i
            ({ fr with children := mapAssign fr.children k (some (Node.mk NodeTypeScalar v2 [] "" "" l4 c4)) }) frs rest (l3 + 1) 1 hsl
        have hse : StructEq (Node.mk NodeTypeScalar v2 [] "" "" l4 c4)
            (Node.mk NodeTypeScalar v2 [] "" "" lc cc) := by
          refine StructEq.intro _ _ rfl rfl rfl rfl ?_
          intro kk
          exact ChildRel.absent
        refine ⟨ch2, l5, c5, ?_, ?_, ?_⟩
        · exact hrest
        · intro k0 hk0
          rcases List.mem_cons.mp hk0 with h | hmem
          · subst h
            by_cases hk0ks : k0 ∈ ks
            · exact hin k0 hk0ks
            · rw [hout k0 hk0ks]
              show ChildRel (mapGet (mapAssign fr.children k0 (some (Node.mk NodeTypeScalar v2 [] "" "" l4 c4))) k0) (mapGet cs k0)
              rw [mapGet_assign_self, hv]
              exact ChildRel.child _ _ hse
          · exact hin k0 hmem
        · intro k0 hk0
          have h1 : k0 ∉ ks := fun hh => hk0 (by simp [hh])
          have h2 : k0 ≠ k := fun hh => hk0 (by simp [hh])
          rw [hout k0 h1]
          show mapGet (mapAssign fr.children k (some (Node.mk NodeTypeScalar v2 [] "" "" l4 c4))) k0 = mapGet fr.children k0
          exact mapGet_assign_other _ _ _ _ h2
      | map ccs lc cc hnd2 hnil2 hkeys2 hwfs2 =>
        simp only [Option.getD_some, Node.headComment, Node.ty, Node.value, Node.lineComment,
          Node.children, NodeTypeMap, NodeTypeScalar, writeQuotedString]
        simp only [ne_eq, not_true_eq_false, if_false, if_true, ite_true, ite_false,
          String.data_append, data_quote, data_space, data_newline, data_openBrace,
          data_closeBrace, data_empty, writeIndent_data, List.append_assoc,
          List.cons_append, List.nil_append, List.append_nil, List.singleton_append]
        rw [parseLoop_spaces]
        obtain ⟨l2, c2, hkeystep⟩ :=
          parseLoop_key k.data
            (' ' :: '\x7b' :: '\n' :: ((encodeMap (Node.mk 0 "" ccs "" "" lc cc) (i + 1)).data ++
              (List.replicate (4 * i) ' ' ++ '\x7d' :: '\n' :: ((encodeEntries cs ks i).data ++ rest))))
            l (col + (4 * i : Nat)) (fr :: frs) "" hknq
        rw [hkeystep, mk_data, parseLoop_space, parseLoop_openBrace, goTrimSpace_empty,
          parseLoop_newline]
        have hsl2 : '/' ∉ List.replicate (4 * i) ' ' ++ '\x7d' :: '\n' ::
            ((encodeEntries cs ks i).data ++ rest) := by
          intro hm
          rcases List.mem_append.mp hm with h | h
          · exact absurd (List.eq_of_mem_replicate h) (by decide)
          · rcases List.mem_cons.mp h with h2 | h2
            · exact absurd h2 (by decide)
            · rcases List.mem_cons.mp h2 with h3 | h3
              · exact absurd h3 (by decide)
              · rcases List.mem_append.mp h3 with h4 | h4
                · exact htailslash h4
                · exact hsl h4
        by_cases hccs : ccs.length = 0
        · have hccsnil : ccs = [] := List.length_eq_zero.mp hccs
          subst hccsnil
          rw [show encodeMap (Node.mk 0 "" [] "" "" lc cc) (i + 1) = "" by rw [encodeMap]; simp [Node.children]]
          rw [data_empty, List.nil_append, parseLoop_spaces, parseLoop_closeBrace,
            parseLoop_newline]
          obtain ⟨ch2, l5, c5, hrest, hin, hout⟩ :=
            ihks (fun k2 hm => hks k2 (by simp [hm])) i
              ({ fr with children := mapAssign fr.children (Frame.key { key := k, line := l2, column := c2 + 1 + 1 - 1, headComment := "", children := [] }) (some (frameNode { key := k, line := l2, column := c2 + 1 + 1 - 1, headComment := "", children := [] })) }) frs rest (l2 + 1 + 1) 1 hsl
          have hse : StructEq (frameNode { key := k, line := l2, column := c2 + 1 + 1 - 1, headComment := "", children := [] }) (Node.mk NodeTypeMap "" [] "" "" lc cc) := by
            refine StructEq.intro _ _ rfl rfl rfl rfl ?_
            intro kk
            exact ChildRel.absent
          refine ⟨ch2, l5, c5, ?_, ?_, ?_⟩
          · exact hrest
          · intro k0 hk0
            rcases List.mem_cons.mp hk0 with h | hmem
            · subst h
              by_cases hk0ks : k0 ∈ ks
              · exact hin k0 hk0ks
              · rw [hout k0 hk0ks]
                show ChildRel (mapGet (mapAssign fr.children k0 _) k0) (mapGet cs k0)
                rw [mapGet_assign_self, hv]
                exact ChildRel.child _ _ hse
            · exact hin k0 hmem
          · intro k0 hk0
            have h1 : k0 ∉ ks := fun hh => hk0 (by simp [hh])
            have h2 : k0 ≠ k := fun hh => hk0 (by simp [hh])
            rw [hout k0 h1]
            exact mapGet_assign_other _ _ _ _ h2
        · have hszc : sizeOf ccs < n := by
            have h1 := sizeOf_child_lt cs k _ hkv
            have h2 := sizeOf_children_lt (Node.mk NodeTypeMap "" ccs "" "" lc cc)
            simp only [Node.children] at h2
            omega
          rw [show encodeMap (Node.mk 0 "" ccs "" "" lc cc) (i + 1) =
              encodeEntries ccs (sortStrings (ccs.map Prod.fst)) (i + 1) by
            rw [encodeMap]
            simp only [Node.children]
            rw [if_neg hccs]]
          obtain ⟨chC, lC, colC, hCeq, hCin, hCout⟩ :=
            IH (sizeOf ccs) (by omega) ccs le_rfl hnil2 hkeys2 hwfs2
              (sortStrings (ccs.map Prod.fst))
              (fun k2 hm => by rw [sortStrings] at hm; exact List.mem_mergeSort.mp hm)
              (i + 1)
              ({ key := k, line := l2, column := c2 + 1 + 1 - 1, headComment := "", children := [] })
              (fr :: frs)
              (List.replicate (4 * i) ' ' ++ '\x7d' :: '\n' :: ((encodeEntries cs ks i).data ++ rest))
              (l2 + 1) 1 hsl2
          rw [hCeq, parseLoop_spaces, parseLoop_closeBrace, parseLoop_newline]
          obtain ⟨ch2, l5, c5, hrest, hin, hout⟩ :=
            ihks (fun k2 hm => hks k2 (by simp [hm])) i
              ({ fr with children := mapAssign fr.children k (some (frameNode { key := k, line := l2, column := c2 + 1 + 1 - 1, headComment := "", children := chC })) }) frs rest (lC + 1) 1 hsl
          have hse : StructEq (frameNode { key := k, line := l2, column := c2 + 1 + 1 - 1, headComment := "", children := chC }) (Node.mk NodeTypeMap "" ccs "" "" lc cc) := by
            refine StructEq.intro _ _ rfl rfl rfl rfl ?_
            intro kk
            show ChildRel (mapGet chC kk) (mapGet ccs kk)
            by_cases hkk : kk ∈ ccs.map Prod.fst
            · exact hCin kk (by rw [sortStrings]; exact List.mem_mergeSort.mpr hkk)
            · rw [hCout kk (by rw [sortStrings]; exact fun hh => hkk (List.mem_mergeSort.mp hh))]
              show ChildRel (mapGet ([] : Children) kk) (mapGet ccs kk)
              rw [mapGet_eq_none_of_not_mem ccs kk hkk]
              exact ChildRel.absent
          refine ⟨ch2, l5, c5, ?_, ?_, ?_⟩
          · exact hrest
          · intro k0 hk0
            rcases List.mem_cons.mp hk0 with h | hmem
            · subst h
              by_cases hk0ks : k0 ∈ ks
              · exact hin k0 hk0ks
              · rw [hout k0 hk0ks]
                show ChildRel (mapGet (mapAssign fr.children k0 _) k0) (mapGet cs k0)
                rw [mapGet_assign_self, hv]
                exact ChildRel.child _ _ hse
            · exact hin k0 hmem
          · intro k0 hk0
            have h1 : k0 ∉ ks := fun hh => hk0 (by simp [hh])
            have h2 : k0 ≠ k := fun hh => hk0 (by simp [hh])
            rw [hout k0 h1]
            exact mapGet_assign_other _ _ _ _ h2

/-- C1 counterexample: the tree with a single scalar child under the empty
key satisfies the claim's hypotheses (no comments, no characters requiring
escaping anywhere), but does not round-trip: it encodes to `"" "b"`, whose
decode reads the empty key, then treats the next quoted string as a *key*
again (a buffered empty key does not switch the parser to value mode), so
the decoded root has no children at all. -/
theorem c1_empty_key_breaks_roundtrip :
    encodeNode (some (Node.mk NodeTypeMap "" [("", some (Node.mk NodeTypeScalar "b" [] "" "" 0 0))] "" "" 0 0)) 0 =
      .ok "\"\" \"b\"\n" ∧
    ("\"\" \"b\"\n" : String).data = ['"', '"', ' ', '"', 'b', '"', '\n'] ∧
    parse ['"', '"', ' ', '"', 'b', '"', '\n'] = (Node.mk NodeTypeMap "" [] "" "" 1 1, none) ∧
    ¬ StructEq (Node.mk NodeTypeMap "" [] "" "" 1 1)
      (Node.mk NodeTypeMap "" [("", some (Node.mk NodeTypeScalar "b" [] "" "" 0 0))] "" "" 0 0) := by
  refine ⟨?_, rfl, ?_, ?_⟩
  · have hs : sortStrings [""] = [""] := by rw [sortStrings]; simp
    simp [encodeNode, encodeMap, encodeEntries, hs, mapGet, List.find?, Node.ty,
      Node.children, Node.value, Node.headComment, Node.lineComment, NodeTypeMap,
      NodeTypeScalar, writeIndent, writeQuotedString, goRepeat, writeHeadComment]
  · simp [parse, parseLoop, processRune, readKey, readValue, hasLineComment,
      extractLineComment, goIsSpace, mapAssign, collapse, frameNode, goTrimSpace,
      goTrimSpaceList, NodeTypeScalar, NodeTypeMap, String.utf8ByteSize, trailingBackslashes,
      Except.map, Char.utf8Size, handleComment, readThroughNewline, firstDoubleSlash,
      hasLineCommentScan, goTrimRightNewlines]
  · intro h
    cases h with
    | intro a b hty hval hh hl =>
      rename_i hch
      have hc := hch ""
      rw [show mapGet (Node.mk NodeTypeMap "" [] "" "" 1 1).children "" = none from rfl] at hc
      rw [show mapGet (Node.mk NodeTypeMap "" [("", some (Node.mk NodeTypeScalar "b" [] "" "" 0 0))] "" "" 0 0).children "" = some (some (Node.mk NodeTypeScalar "b" [] "" "" 0 0)) from rfl] at hc
      cases hc

/-- C1 (amended): for every tree of Map/Scalar nodes whose root is a Map,
whose nodes carry no head or line comments, whose keys are nonempty, and
whose keys and values contain no characters requiring escaping (no quotes,
braces, backslashes, or comment markers), decoding the bytes produced by
encoding the tree succeeds and yields a tree structurally equal to the
original (same variants, same key sets, same scalar values, same comments),
with only the Line/Column position fields allowed to differ. -/
theorem c1_amended_decode_encode_roundtrip (t : Node) (enc : String)
    (hwf : WfTree t) (hty : t.ty = NodeTypeMap)
    (henc : encodeNode (some t) 0 = .ok enc) :
    (parse enc.data).2 = none ∧ StructEq (parse enc.data).1 t := by
  cases hwf with
  | scalar v l c hno => simp [Node.ty, NodeTypeScalar, NodeTypeMap] at hty
  | map cs l c hnd hnil hkeys hwfs =>
    rw [encodeNode] at henc
    simp only [Node.ty, NodeTypeMap, if_true, if_pos rfl] at henc
    have henc2 : encodeMap (Node.mk NodeTypeMap "" cs "" "" l c) 0 = enc := by
      injection henc
    by_cases h0 : cs.length = 0
    · have hcs : cs = [] := List.length_eq_zero.mp h0
      subst hcs
      have henc0 : enc = "" := by
        rw [← henc2, encodeMap]
        simp [Node.children]
      subst henc0
      rw [show ("" : String).data = [] from rfl, parse, parseLoop_nil]
      constructor
      · rfl
      · simp only [collapse, frameNode]
        refine StructEq.intro _ _ rfl rfl rfl rfl ?_
        intro kk
        exact ChildRel.absent
    · have hencE : enc.data =
          (encodeEntries cs (sortStrings (cs.map Prod.fst)) 0).data ++ [] := by
        rw [List.append_nil, ← henc2, encodeMap]
        simp only [Node.children]
        rw [if_neg h0]
      obtain ⟨ch2, l2, c2, heq, hin, hout⟩ :=
        encodeEntries_sim (sizeOf cs) cs le_rfl hnil hkeys hwfs
          (sortStrings (cs.map Prod.fst))
          (fun k2 hm => by rw [sortStrings] at hm; exact List.mem_mergeSort.mp hm)
          0 ({ key := "", line := 1, column := 1, headComment := "", children := [] }) [] []
          1 1 (by simp)
      rw [parse, hencE, heq, parseLoop_nil]
      constructor
      · rfl
      · simp only [collapse, frameNode]
        refine StructEq.intro _ _ rfl rfl rfl rfl ?_
        intro kk
        show ChildRel (mapGet ch2 kk) (mapGet cs kk)
        by_cases hkk : kk ∈ cs.map Prod.fst
        · exact hin kk (by rw [sortStrings]; exact List.mem_mergeSort.mpr hkk)
        · rw [hout kk (by rw [sortStrings]; exact fun hh => hkk (List.mem_mergeSort.mp hh))]
          rw [show mapGet ([] : Children) kk = none from rfl,
            mapGet_eq_none_of_not_mem cs kk hkk]
          exact ChildRel.absent

/-- Witness for `c1_amended_decode_encode_roundtrip` at a one-child tree. -/
theorem c1_amended_decode_encode_roundtrip_witness :
    (WfTree (Node.mk NodeTypeMap "" [("a", some (Node.mk NodeTypeScalar "b" [] "" "" 0 0))] "" "" 0 0) ∧
      (Node.mk NodeTypeMap "" [("a", some (Node.mk NodeTypeScalar "b" [] "" "" 0 0))] "" "" 0 0).ty = NodeTypeMap ∧
      encodeNode (some (Node.mk NodeTypeMap "" [("a", some (Node.mk NodeTypeScalar "b" [] "" "" 0 0))] "" "" 0 0)) 0 = .ok "\"a\" \"b\"\n") ∧
    ((parse ("\"a\" \"b\"\n" : String).data).2 = none ∧
      StructEq (parse ("\"a\" \"b\"\n" : String).data).1
        (Node.mk NodeTypeMap "" [("a", some (Node.mk NodeTypeScalar "b" [] "" "" 0 0))] "" "" 0 0)) := by
  have hwf : WfTree (Node.mk NodeTypeMap "" [("a", some (Node.mk NodeTypeScalar "b" [] "" "" 0 0))] "" "" 0 0) := by
    refine WfTree.map _ 0 0 (by simp) ?_ ?_ ?_
    · intro k nn hm
      simp at hm
      exact ⟨_, hm.2⟩
    · intro k m hm
      simp at hm
      rw [hm.1]
      decide
    · intro k m hm
      simp at hm
      rw [hm.2]
      exact WfTree.scalar "b" 0 0 (by decide)
  have henc : encodeNode (some (Node.mk NodeTypeMap "" [("a", some (Node.mk NodeTypeScalar "b" [] "" "" 0 0))] "" "" 0 0)) 0 = .ok "\"a\" \"b\"\n" := by
    have hs : sortStrings ["a"] = ["a"] := by rw [sortStrings]; simp
    simp [encodeNode, encodeMap, encodeEntries, hs, mapGet, List.find?, Node.ty,
      Node.children, Node.value, Node.headComment, Node.lineComment, NodeTypeMap,
      NodeTypeScalar, writeIndent, writeQuotedString, goRepeat, writeHeadComment]
  exact ⟨⟨hwf, rfl, henc⟩,
    c1_amended_decode_encode_roundtrip _ _ hwf rfl henc⟩

end GoVdf
